import Mathlib

/-!
# beerxml.go, `mashStep.go`: the mash step record and its collection wrapper

A shallow embedding of `MashStep`, `MashSteps`, `MashSteps.MarshalJSON` and
`MashSteps.UnmarshalJSON`.

* Go `string` and `[]byte` are byte sequences (`Bytes`).
* Go pointers `*float64`, `*int64` are `Option`s (`nil` is `none`).
* Go `float64` is its IEEE-754 bit pattern.
* A call returning `([]byte, error)` is an `Outcome`: the returned pair, or a
  run-time panic (the slice expression in `MarshalJSON` can panic in principle).
* `json.Marshal(hop)` belongs to the Go standard library.  `MarshalJSON` takes it
  as a parameter; `jsonMarshal` further down is the standard encoder specialised to
  the field tags of `MashStep`.
-/

namespace BeerXML

/-! ## Definitions -/

/-- Go byte sequences (`[]byte`, and the bytes of a `string`). -/
abbrev Bytes := List UInt8

/-- Bytes of an ASCII literal, as in Go `[]byte("...")`. -/
def ascii (s : String) : Bytes := s.toList.map (fun c => UInt8.ofNat c.toNat)

/-- Go `float64`, by its IEEE-754 binary64 bit pattern. -/
structure Float64 where
  bits : Fin (2 ^ 64)
  deriving DecidableEq

namespace Float64

/-- The 11-bit biased exponent field. -/
def expField (f : Float64) : Nat := (f.bits.val / 2 ^ 52) % 2 ^ 11

/-- The 52-bit fraction field. -/
def fracField (f : Float64) : Nat := f.bits.val % 2 ^ 52

/-- Sign bit. -/
def signBit (f : Float64) : Bool := decide (2 ^ 63 ≤ f.bits.val)

/-- Go `math.IsNaN`. -/
def isNaN (f : Float64) : Bool := f.expField == 2047 && f.fracField != 0

/-- Go `math.IsInf(f, 0)`. -/
def isInf (f : Float64) : Bool := f.expField == 2047 && f.fracField == 0

/-- Go `f == 0`: true of both `+0` and `-0`. -/
def isZero (f : Float64) : Bool := f.expField == 0 && f.fracField == 0

/-- The value `+0`. -/
def zero : Float64 := ⟨⟨0, by decide⟩⟩

/-- The value `-0`. -/
def negZero : Float64 := ⟨⟨0x8000000000000000, by decide⟩⟩

/-- The value `65.0` (`2^6 * (1 + 2^-6)`). -/
def sixtyFive : Float64 := ⟨⟨0x4050400000000000, by decide⟩⟩

/-- The quiet NaN returned by Go `math.NaN()`. -/
def nan : Float64 := ⟨⟨0x7FF8000000000001, by decide⟩⟩

/-- The value `+Inf`. -/
def posInf : Float64 := ⟨⟨0x7FF0000000000000, by decide⟩⟩

/-- For a finite value, the integer mantissa `m` and exponent `e` with
`|f| = m * 2^e`. -/
def mantExp (f : Float64) : Nat × Int :=
  if f.expField = 0 then (f.fracField, -1074)
  else (2 ^ 52 + f.fracField, (f.expField : Int) - 1075)

end Float64

/-- The Go struct `MashStep` (lines 9-51), field by field. -/
structure MashStep where
  Name : Bytes
  Version : Int
  Type_ : Bytes
  InfuseAmount : Option Float64
  StepTemp : Float64
  StepTime : Int
  RampTime : Option Int
  EndTemp : Option Float64
  Description : Bytes
  WaterGrainRatio : Bytes
  DecoctionAmt : Bytes
  InfuseTemp : Bytes
  DisplayStepTemp : Bytes
  DisplayInfuseAmt : Bytes
  deriving DecidableEq

/-- The Go zero value of `MashStep`. -/
def MashStep.zero : MashStep :=
  { Name := [], Version := 0, Type_ := [], InfuseAmount := none,
    StepTemp := Float64.zero, StepTime := 0, RampTime := none, EndTemp := none,
    Description := [], WaterGrainRatio := [], DecoctionAmt := [], InfuseTemp := [],
    DisplayStepTemp := [], DisplayInfuseAmt := [] }

/-- The Go struct `MashSteps` (lines 53-55). -/
structure MashSteps where
  Mashstep : List MashStep
  deriving DecidableEq

/-- What a Go call of type `([]byte, error)` does: it returns a pair (a `nil`
slice is `none`, a `nil` error is `none`), or it panics. -/
inductive Outcome (ε : Type) where
  | ret (b : Option Bytes) (err : Option ε)
  | panic
  deriving DecidableEq

/-- The Go slice expression `b[:n]`.  It panics unless `0 ≤ n ≤ cap(b)`; the
bound used here is `len(b)`, which never exceeds `cap(b)`. -/
def sliceTo (b : Bytes) (n : Int) : Option Bytes :=
  if 0 ≤ n ∧ n ≤ (b.length : Int) then some (b.take n.toNat) else none

/-- The `for _, hop := range a.Mashstep` loop of `MarshalJSON` (lines 61-69),
started with buffer `b`.  `jsonMarshal hop` is the pair returned by
`json.Marshal(hop)`; an error leaves the function at once. -/
def MarshalJSON.loop {ε : Type} (jsonMarshal : MashStep → Bytes × Option ε) :
    List MashStep → Bytes → Except ε Bytes
  | [], b => .ok b
  | hop :: rest, b =>
    match jsonMarshal hop with
    | (_, some err) => .error err
    | (bb, none) => MarshalJSON.loop jsonMarshal rest ((b ++ bb) ++ ascii ",")

/-- The method `MashSteps.MarshalJSON` (lines 57-77). -/
def MashSteps.MarshalJSON {ε : Type} (jsonMarshal : MashStep → Bytes × Option ε)
    (a : MashSteps) : Outcome ε :=
  let b : Bytes := []
  let b := b ++ ascii "["
  if a.Mashstep.length > 0 then
    match MarshalJSON.loop jsonMarshal a.Mashstep b with
    | .error err => .ret none (some err)
    | .ok b =>
      match sliceTo b ((b.length : Int) - 1) with
      | none => .panic
      | some b => .ret (some (b ++ ascii "]")) none
  else
    .ret (some (b ++ ascii "]")) none

/-- The method `MashSteps.UnmarshalJSON` (lines 79-81): the receiver after the
call, and the error returned. -/
def MashSteps.UnmarshalJSON {ε : Type} (a : MashSteps) (_b : Bytes) :
    MashSteps × Option ε :=
  (a, none)

/-- The bytes appended by the loop for a list of encodings: each encoding
followed by a comma. -/
def commaTerminated (encs : List Bytes) : Bytes :=
  (encs.map (fun e => e ++ ascii ",")).flatten

/-! ### `json.Marshal` on a `MashStep`

The struct encoder of Go `encoding/json`, specialised to the field tags of
`MashStep`.  Every tag is `json:"<key>,omitempty"`. -/

/-- The two formatting routines of the Go standard library that the encoder calls
and that are kept abstract here. -/
structure Formatters where
  /-- The JSON string literal, quotes included, that `encoding/json` writes for a
  Go string (escaping and replacement of invalid UTF-8 included). -/
  quote : Bytes → Bytes
  /-- The number literal that `encoding/json` writes for a finite `float64`
  (`strconv.AppendFloat` with the format chosen by the float encoder). -/
  float : Float64 → Bytes

/-- The error `*json.UnsupportedValueError` for a float that JSON cannot hold. -/
inductive JsonError where
  | unsupportedValue (f : Float64)
  deriving DecidableEq

/-- Go `strconv.AppendInt(nil, i, 10)`. -/
def appendInt (i : Int) : Bytes :=
  match i with
  | .ofNat n => (Nat.toDigits 10 n).map (fun c => UInt8.ofNat c.toNat)
  | .negSucc n => ascii "-" ++ (Nat.toDigits 10 (n + 1)).map (fun c => UInt8.ofNat c.toNat)

/-- A non-pointer field value of `MashStep`. -/
inductive Scalar where
  | string (s : Bytes)
  | int (i : Int)
  | float (f : Float64)
  deriving DecidableEq

/-- A field value: a scalar, or a pointer to one. -/
inductive FieldValue where
  | plain (v : Scalar)
  | pointer (p : Option Scalar)
  deriving DecidableEq

/-- One struct field as the encoder sees it: the key of its `json` tag, the
`omitempty` option, and the value. -/
structure Field where
  name : String
  omitEmpty : Bool
  value : FieldValue
  deriving DecidableEq

/-- The fields of a `MashStep` in declaration order, with the keys and options
of their `json` tags (lines 11-50). -/
def MashStep.fields (m : MashStep) : List Field :=
  [ ⟨"name", true, .plain (.string m.Name)⟩,
    ⟨"version", true, .plain (.int m.Version)⟩,
    ⟨"type", true, .plain (.string m.Type_)⟩,
    ⟨"infuse_amount", true, .pointer (m.InfuseAmount.map Scalar.float)⟩,
    ⟨"step_temp", true, .plain (.float m.StepTemp)⟩,
    ⟨"step_time", true, .plain (.int m.StepTime)⟩,
    ⟨"ramp_time", true, .pointer (m.RampTime.map Scalar.int)⟩,
    ⟨"end_temp", true, .pointer (m.EndTemp.map Scalar.float)⟩,
    ⟨"description", true, .plain (.string m.Description)⟩,
    ⟨"water_grain_ratio", true, .plain (.string m.WaterGrainRatio)⟩,
    ⟨"decoction_amt", true, .plain (.string m.DecoctionAmt)⟩,
    ⟨"infuse_temp", true, .plain (.string m.InfuseTemp)⟩,
    ⟨"display_step_temp", true, .plain (.string m.DisplayStepTemp)⟩,
    ⟨"display_infuse_amt", true, .plain (.string m.DisplayInfuseAmt)⟩ ]

/-- The 14 JSON keys in declaration order. -/
def declaredKeys : List String :=
  ["name", "version", "type", "infuse_amount", "step_temp", "step_time", "ramp_time",
   "end_temp", "description", "water_grain_ratio", "decoction_amt", "infuse_temp",
   "display_step_temp", "display_infuse_amt"]

/-- Go `isEmptyValue` of `encoding/json`: a string of length 0, an integer or
float equal to 0, a nil pointer. -/
def isEmptyValue : FieldValue → Bool
  | .plain (.string s) => s.length == 0
  | .plain (.int i) => i == 0
  | .plain (.float f) => f.isZero
  | .pointer p => p.isNone

/-- The float encoder of `encoding/json`: NaN and the infinities are rejected. -/
def floatEncoder (lib : Formatters) (f : Float64) : Except JsonError Bytes :=
  if f.isInf || f.isNaN then .error (.unsupportedValue f) else .ok (lib.float f)

/-- The encoder of a scalar. -/
def encodeScalar (lib : Formatters) : Scalar → Except JsonError Bytes
  | .string s => .ok (lib.quote s)
  | .int i => .ok (appendInt i)
  | .float f => floatEncoder lib f

/-- The encoder of a field value; the pointer encoder writes `null` for a nil
pointer and the pointed-to value otherwise. -/
def encodeValue (lib : Formatters) : FieldValue → Except JsonError Bytes
  | .plain v => encodeScalar lib v
  | .pointer none => .ok (ascii "null")
  | .pointer (some v) => encodeScalar lib v

/-- The field loop of the struct encoder: `e` is the output so far and `next`
the byte to write before the next key (`{` at first, `,` afterwards). -/
def structEncoder.loop (lib : Formatters) :
    List Field → Bytes → UInt8 → Except JsonError (Bytes × UInt8)
  | [], e, next => .ok (e, next)
  | f :: fs, e, next =>
    if f.omitEmpty && isEmptyValue f.value then structEncoder.loop lib fs e next
    else
      let e := e ++ [next]
      let e := e ++ (ascii "\"" ++ ascii f.name ++ ascii "\":")
      match encodeValue lib f.value with
      | .error err => .error err
      | .ok v => structEncoder.loop lib fs (e ++ v) 0x2C

/-- The struct encoder: the field loop, then `{}` if nothing was written and
`}` otherwise. -/
def structEncoder (lib : Formatters) (fs : List Field) : Except JsonError Bytes :=
  match structEncoder.loop lib fs [] 0x7B with
  | .error err => .error err
  | .ok (e, next) => if next = 0x7B then .ok (e ++ ascii "\x7b\x7d") else .ok (e ++ ascii "\x7d")

/-- Go `json.Marshal(hop)` for a `MashStep`: the bytes and a nil error, or nil
bytes and the error. -/
def jsonMarshal (lib : Formatters) (m : MashStep) : Bytes × Option JsonError :=
  match structEncoder lib m.fields with
  | .error err => ([], some err)
  | .ok b => (b, none)

/-- The fields that the struct encoder does not skip. -/
def emitted (fs : List Field) : List Field :=
  fs.filter (fun f => !(f.omitEmpty && isEmptyValue f.value))

/-- The keys of the JSON object of a record, in the order written. -/
def objectKeys (m : MashStep) : List String := (emitted m.fields).map Field.name

/-- The members (key and encoded value) of the JSON object of a field list. -/
def encodeMembers (lib : Formatters) : List Field → Except JsonError (List (String × Bytes))
  | [] => .ok []
  | f :: fs =>
    if f.omitEmpty && isEmptyValue f.value then encodeMembers lib fs
    else
      match encodeValue lib f.value with
      | .error err => .error err
      | .ok v =>
        match encodeMembers lib fs with
        | .error err => .error err
        | .ok ms => .ok ((f.name, v) :: ms)

/-- One member as written: the quoted key, a colon, the value. -/
def renderMember (kv : String × Bytes) : Bytes :=
  ascii "\"" ++ ascii kv.1 ++ ascii "\":" ++ kv.2

/-- An object as written: the members separated by commas, in braces. -/
def renderObject (ms : List (String × Bytes)) : Bytes :=
  ascii "\x7b" ++ List.intercalate (ascii ",") (ms.map renderMember) ++ ascii "\x7d"

/-- A float is finite: neither NaN nor an infinity. -/
def Float64.isFinite (f : Float64) : Bool := !(f.isInf || f.isNaN)

/-- The floats a record holds are all finite: `StepTemp`, and `InfuseAmount` and
`EndTemp` when present. -/
def MashStep.finiteFloats (m : MashStep) : Bool :=
  m.StepTemp.isFinite && m.InfuseAmount.all Float64.isFinite && m.EndTemp.all Float64.isFinite

/-- A formatter instance for worked examples.  `quote` puts the bytes between
quotes (what Go writes for a string of printable ASCII without quote, backslash,
`<`, `>`, `&`); `float` writes the integral part in decimal (what Go writes for an
integral value of magnitude below `2^53`). -/
def exampleFormat : Formatters where
  quote := fun s => ascii "\"" ++ s ++ ascii "\""
  float := fun f =>
    let me := f.mantExp
    let n : Nat := if 0 ≤ me.2 then me.1 * 2 ^ me.2.toNat else me.1 / 2 ^ (-me.2).toNat
    (if f.signBit then ascii "-" else []) ++ (Nat.toDigits 10 n).map (fun c => UInt8.ofNat c.toNat)

/-- The bytes the field loop writes for a list of members when `next` is the
byte due before the first key. -/
def writeMembers : UInt8 → List (String × Bytes) → Bytes
  | _, [] => []
  | next, kv :: ms => [next] ++ renderMember kv ++ writeMembers 0x2C ms

/-- A record with two integer fields set: version 1 and a step time of 30. -/
def stepA : MashStep := { MashStep.zero with Version := 1, StepTime := 30 }

/-- A record with only the step temperature set, to 65.0. -/
def stepB : MashStep := { MashStep.zero with StepTemp := Float64.sixtyFive }

/-- A record whose step temperature is NaN. -/
def stepNaN : MashStep := { MashStep.zero with StepTemp := Float64.nan }

/-! ### JSON syntax (RFC 8259), for stating that an output is a valid JSON text -/

/-- A parsed JSON value.  Numbers and strings keep their source bytes. -/
inductive JValue where
  | null
  | bool (b : Bool)
  | number (lit : Bytes)
  | string (body : Bytes)
  | array (elems : List JValue)
  | object (members : List (Bytes × JValue))

/-- JSON whitespace: space, tab, line feed, carriage return. -/
def isWs (c : UInt8) : Bool := c == 0x20 || c == 0x09 || c == 0x0A || c == 0x0D

/-- Drops leading whitespace. -/
def skipWs : Bytes → Bytes
  | [] => []
  | c :: r => if isWs c then skipWs r else c :: r

/-- A decimal digit. -/
def isDigit (c : UInt8) : Bool := decide (0x30 ≤ c) && decide (c ≤ 0x39)

/-- A hexadecimal digit. -/
def isHex (c : UInt8) : Bool :=
  isDigit c || (decide (0x41 ≤ c) && decide (c ≤ 0x46)) || (decide (0x61 ≤ c) && decide (c ≤ 0x66))

/-- A byte that may follow a backslash in a string, `u` apart. -/
def isEscape (c : UInt8) : Bool :=
  c == 0x22 || c == 0x5C || c == 0x2F || c == 0x62 || c == 0x66 || c == 0x6E ||
    c == 0x72 || c == 0x74

/-- Where the string scanner stands: in plain text, after a backslash, or with
`k` hexadecimal digits of a `\u` escape still due. -/
inductive StrMode where
  | normal
  | escape
  | hex (k : Nat)

/-- Puts a byte in front of the scanned part of a result. -/
def consFst (c : UInt8) (o : Option (Bytes × Bytes)) : Option (Bytes × Bytes) :=
  o.map (fun p => (c :: p.1, p.2))

/-- The mode after a hexadecimal digit when `k` more were due after it. -/
def hexNext : Nat → StrMode
  | 0 => .normal
  | j + 1 => .hex j

/-- Scans a string after its opening quote: the body up to the closing quote, and
the bytes after that quote. -/
def scanString : StrMode → Bytes → Option (Bytes × Bytes)
  | _, [] => none
  | .normal, c :: r =>
    if c = 0x22 then some ([], r)
    else if c = 0x5C then consFst c (scanString .escape r)
    else if c < 0x20 then none
    else consFst c (scanString .normal r)
  | .escape, c :: r =>
    if c = 0x75 then consFst c (scanString (.hex 3) r)
    else if isEscape c then consFst c (scanString .normal r)
    else none
  | .hex k, c :: r =>
    if isHex c then
      consFst c (scanString (hexNext k) r)
    else none

/-- Consumes the literal `lit` from the front of the input. -/
def expect : Bytes → Bytes → Option Bytes
  | [], s => some s
  | _ :: _, [] => none
  | a :: lit, c :: s => if a = c then expect lit s else none

/-- The integer part of a number: `0`, or a non-zero digit and further digits. -/
def scanInt : Bytes → Option (Bytes × Bytes)
  | [] => none
  | c :: r =>
    if c = 0x30 then some ([c], r)
    else if isDigit c then some (c :: r.takeWhile isDigit, r.dropWhile isDigit)
    else none

/-- The optional fraction: a point and at least one digit. -/
def scanFrac : Bytes → Option (Bytes × Bytes)
  | [] => some ([], [])
  | c :: r =>
    if c = 0x2E then
      if r.takeWhile isDigit = [] then none
      else some (c :: r.takeWhile isDigit, r.dropWhile isDigit)
    else some ([], c :: r)

/-- The optional sign of an exponent. -/
def scanSign : Bytes → Bytes × Bytes
  | [] => ([], [])
  | d :: r => if d = 0x2B ∨ d = 0x2D then ([d], r) else ([], d :: r)

/-- The optional exponent: `e` or `E`, an optional sign, at least one digit. -/
def scanExp : Bytes → Option (Bytes × Bytes)
  | [] => some ([], [])
  | c :: r =>
    if c = 0x65 ∨ c = 0x45 then
      if (scanSign r).2.takeWhile isDigit = [] then none
      else some (c :: ((scanSign r).1 ++ (scanSign r).2.takeWhile isDigit),
                 (scanSign r).2.dropWhile isDigit)
    else some ([], c :: r)

/-- The optional minus sign of a number. -/
def scanMinus : Bytes → Bytes × Bytes
  | [] => ([], [])
  | c :: r => if c = 0x2D then ([c], r) else ([], c :: r)

/-- A number: optional minus, integer part, optional fraction, optional exponent. -/
def scanNumber (s : Bytes) : Option (Bytes × Bytes) :=
  match scanInt (scanMinus s).2 with
  | none => none
  | some (i, s2) =>
    match scanFrac s2 with
    | none => none
    | some (f, s3) =>
      match scanExp s3 with
      | none => none
      | some (e, s4) => some ((scanMinus s).1 ++ i ++ f ++ e, s4)

/-- The elements of an array after the opening bracket, up to and including the
closing bracket; `pv` parses one value and `k` bounds the number of elements. -/
def parseElems (pv : Bytes → Option (JValue × Bytes)) :
    Nat → Bytes → Option (List JValue × Bytes)
  | 0, _ => none
  | k + 1, s =>
    match pv (skipWs s) with
    | none => none
    | some (v, r) =>
      match skipWs r with
      | [] => none
      | c :: r2 =>
        if c = 0x2C then (parseElems pv k r2).map (fun p => (v :: p.1, p.2))
        else if c = 0x5D then some ([v], r2)
        else none

/-- The members of an object after the opening brace, up to and including the
closing brace. -/
def parseMembers (pv : Bytes → Option (JValue × Bytes)) :
    Nat → Bytes → Option (List (Bytes × JValue) × Bytes)
  | 0, _ => none
  | k + 1, s =>
    match skipWs s with
    | [] => none
    | q :: r0 =>
      if q = 0x22 then
        match scanString .normal r0 with
        | none => none
        | some (key, r1) =>
          match skipWs r1 with
          | [] => none
          | col :: r2 =>
            if col = 0x3A then
              match pv (skipWs r2) with
              | none => none
              | some (v, r3) =>
                match skipWs r3 with
                | [] => none
                | c :: r4 =>
                  if c = 0x2C then
                    (parseMembers pv k r4).map (fun p => ((key, v) :: p.1, p.2))
                  else if c = 0x7D then some ([(key, v)], r4)
                  else none
            else none
      else none

/-- One JSON value at the front of the input (no leading whitespace), and the
bytes after it.  The fuel bounds the nesting depth and the length of arrays and
objects. -/
def parseValue : Nat → Bytes → Option (JValue × Bytes)
  | 0, _ => none
  | n + 1, s =>
    match s with
    | [] => none
    | c :: r =>
      if c = 0x22 then (scanString .normal r).map (fun p => (JValue.string p.1, p.2))
      else if c = 0x5B then
        match skipWs r with
        | [] => none
        | c2 :: r2 =>
          if c2 = 0x5D then some (JValue.array [], r2)
          else (parseElems (parseValue n) n r).map (fun p => (JValue.array p.1, p.2))
      else if c = 0x7B then
        match skipWs r with
        | [] => none
        | c2 :: r2 =>
          if c2 = 0x7D then some (JValue.object [], r2)
          else (parseMembers (parseValue n) n r).map (fun p => (JValue.object p.1, p.2))
      else if c = 0x74 then (expect (ascii "rue") r).map (fun r2 => (JValue.bool true, r2))
      else if c = 0x66 then (expect (ascii "alse") r).map (fun r2 => (JValue.bool false, r2))
      else if c = 0x6E then (expect (ascii "ull") r).map (fun r2 => (JValue.null, r2))
      else (scanNumber (c :: r)).map (fun p => (JValue.number p.1, p.2))

/-- A JSON text: whitespace, one value, whitespace, and nothing else.  The fuel is
the length of the text, which bounds both its nesting depth and its element
counts. -/
def parseJson (s : Bytes) : Option JValue :=
  match parseValue (s.length + 1) (skipWs s) with
  | none => none
  | some (v, r) =>
    match skipWs r with
    | [] => some v
    | _ :: _ => none

/-- The appended input is empty or starts with a comma, a closing bracket or a
closing brace. -/
def startsDelim : Bytes → Bool
  | [] => true
  | c :: _ => c == 0x2C || c == 0x5D || c == 0x7D

/-- A byte that stands for itself inside a JSON string. -/
def plainByte (c : UInt8) : Bool := c != 0x22 && c != 0x5C && !decide (c < 0x20)


/-- A byte of a lower-snake-case name: a lower-case letter or an underscore. -/
def snakeByte (c : UInt8) : Bool := (decide (0x61 ≤ c) && decide (c ≤ 0x7A)) || c == 0x5F

/-- The bytes a caller holds after a call of type `([]byte, error)`: those of the
returned slice, and none for a `nil` slice or after a panic. -/
def Outcome.bytes {ε : Type} : Outcome ε → Bytes
  | .ret (some b) _ => b
  | .ret none _ => []
  | .panic => []

/-- An encoder in the place of `json.Marshal` whose encoding of every record is
the single byte `,`. -/
def commaEncoder : MashStep → Bytes × Option JsonError := fun _ => (ascii ",", none)

/-- An encoder in the place of `json.Marshal` whose encoding of every record is
empty. -/
def emptyEncoder : MashStep → Bytes × Option JsonError := fun _ => ([], none)

/-- A record with only the infusion amount set, to a present 0.0. -/
def stepInfuseZero : MashStep := { MashStep.zero with InfuseAmount := some Float64.zero }

/-- A record with only the ramp time set, to a present 0. -/
def stepRampZero : MashStep := { MashStep.zero with RampTime := some 0 }

/-- A record with only the end temperature set, to a present 0.0. -/
def stepEndZero : MashStep := { MashStep.zero with EndTemp := some Float64.zero }

/-! ## Theorems -/

theorem loop_ok {ε : Type} (jm : MashStep → Bytes × Option ε) :
    ∀ (steps : List MashStep) (b : Bytes), (∀ s ∈ steps, (jm s).2 = none) →
      MarshalJSON.loop jm steps b
        = .ok (b ++ commaTerminated (steps.map (fun s => (jm s).1)))
  | [], b, _ => by simp [MarshalJSON.loop, commaTerminated]
  | s :: rest, b, h => by
    have hs : (jm s).2 = none := h s (by simp)
    have hrest : ∀ x ∈ rest, (jm x).2 = none := fun x hx => h x (by simp [hx])
    have ih := loop_ok jm rest ((b ++ (jm s).1) ++ ascii ",") hrest
    rcases hjm : jm s with ⟨bb, e⟩
    rw [hjm] at hs ih
    simp only at hs
    subst hs
    simp only [MarshalJSON.loop, hjm]
    rw [ih]
    simp [commaTerminated, List.append_assoc, hjm]

theorem commaTerminated_cons (e : Bytes) (es : List Bytes) :
    commaTerminated (e :: es) = e ++ ascii "," ++ commaTerminated es := by
  simp [commaTerminated]

theorem commaTerminated_eq_intercalate :
    ∀ (encs : List Bytes), encs ≠ [] →
      commaTerminated encs = List.intercalate (ascii ",") encs ++ ascii ","
  | [], h => absurd rfl h
  | [e], _ => by simp [commaTerminated, List.intercalate]
  | e :: e2 :: es, _ => by
    have ih := commaTerminated_eq_intercalate (e2 :: es) (by simp)
    rw [commaTerminated_cons, ih]
    simp [List.intercalate, List.append_assoc]

theorem sliceTo_dropLast (b : Bytes) (c : UInt8) :
    sliceTo (b ++ [c]) (((b ++ [c]).length : Int) - 1) = some b := by
  simp [sliceTo]

/-- The output of `MarshalJSON` on a non-empty collection whose records all encode. -/
theorem marshal_nonempty {ε : Type} (jm : MashStep → Bytes × Option ε)
    (steps : List MashStep) (hne : steps ≠ []) (hok : ∀ s ∈ steps, (jm s).2 = none) :
    MashSteps.MarshalJSON jm ⟨steps⟩
      = .ret (some (ascii "[" ++ List.intercalate (ascii ",")
          (steps.map (fun s => (jm s).1)) ++ ascii "]")) none := by
  have hlen : steps.length > 0 := List.length_pos.mpr hne
  have hmap : steps.map (fun s => (jm s).1) ≠ [] := by simpa using hne
  simp only [MashSteps.MarshalJSON, hlen, if_true, List.nil_append]
  rw [loop_ok jm steps _ hok, commaTerminated_eq_intercalate _ hmap]
  have hc : ascii "," = [0x2C] := by decide
  rw [hc, ← List.append_assoc]
  dsimp only
  rw [sliceTo_dropLast]

/-! ### The struct encoder -/

theorem structLoop_eq (lib : Formatters) :
    ∀ (fs : List Field) (e : Bytes) (next : UInt8),
      structEncoder.loop lib fs e next =
        match encodeMembers lib fs with
        | .error err => .error err
        | .ok ms => .ok (e ++ writeMembers next ms, if ms = [] then next else 0x2C)
  | [], e, next => by simp [structEncoder.loop, encodeMembers, writeMembers]
  | f :: fs, e, next => by
    by_cases hskip : (f.omitEmpty && isEmptyValue f.value) = true
    · simp only [structEncoder.loop, encodeMembers, hskip, if_true]
      exact structLoop_eq lib fs e next
    · simp only [structEncoder.loop, encodeMembers, hskip, if_false]
      cases hv : encodeValue lib f.value with
      | error err => rfl
      | ok v =>
        simp only []
        rw [structLoop_eq lib fs _ 0x2C]
        cases hms : encodeMembers lib fs with
        | error err => rfl
        | ok ms =>
          cases ms <;>
            simp [writeMembers, renderMember, List.append_assoc]

theorem writeMembers_cons_eq (next : UInt8) :
    ∀ (kv : String × Bytes) (ms : List (String × Bytes)),
      writeMembers next (kv :: ms)
        = [next] ++ List.intercalate (ascii ",") ((kv :: ms).map renderMember)
  | kv, [] => by simp [writeMembers, List.intercalate]
  | kv, kv2 :: ms => by
    have ih := writeMembers_cons_eq 0x2C kv2 ms
    have hc : ascii "," = [0x2C] := by decide
    rw [writeMembers, ih, hc]
    simp [List.intercalate, List.append_assoc]

theorem structEncoder_eq (lib : Formatters) (fs : List Field) :
    structEncoder lib fs = (encodeMembers lib fs).map renderObject := by
  unfold structEncoder
  rw [structLoop_eq]
  cases hms : encodeMembers lib fs with
  | error err => rfl
  | ok ms =>
    cases ms with
    | nil =>
      have h : renderObject [] = ascii "\x7b\x7d" := by decide
      simp [writeMembers, h, Except.map]
    | cons kv ms =>
      have hb : ascii "\x7b" = [0x7B] := by decide
      simp [writeMembers_cons_eq, renderObject, Except.map, hb]

theorem emitted_cons_skip (f : Field) (fs : List Field)
    (h : (f.omitEmpty && isEmptyValue f.value) = true) : emitted (f :: fs) = emitted fs := by
  unfold emitted
  rw [List.filter_cons_of_neg]
  rw [h]
  decide

theorem emitted_cons_keep (f : Field) (fs : List Field)
    (h : ¬ (f.omitEmpty && isEmptyValue f.value) = true) :
    emitted (f :: fs) = f :: emitted fs := by
  unfold emitted
  rw [List.filter_cons_of_pos]
  rw [Bool.not_eq_true] at h
  rw [h]
  rfl

theorem encodeMembers_keys (lib : Formatters) :
    ∀ (fs : List Field) (ms : List (String × Bytes)),
      encodeMembers lib fs = .ok ms → ms.map Prod.fst = (emitted fs).map Field.name
  | [], ms, h => by
    simp only [encodeMembers, Except.ok.injEq] at h
    subst h
    rfl
  | f :: fs, ms, h => by
    by_cases hskip : (f.omitEmpty && isEmptyValue f.value) = true
    · simp only [encodeMembers, hskip, if_true] at h
      rw [emitted_cons_skip f fs hskip]
      exact encodeMembers_keys lib fs ms h
    · simp only [encodeMembers, hskip, if_false] at h
      cases hv : encodeValue lib f.value with
      | error err => simp [hv] at h
      | ok v =>
        cases hms : encodeMembers lib fs with
        | error err => simp [hv, hms] at h
        | ok ms2 =>
          rw [hv, hms] at h
          simp only [Bool.false_eq_true, if_false, Except.ok.injEq] at h
          subst h
          rw [emitted_cons_keep f fs hskip]
          simp [encodeMembers_keys lib fs ms2 hms]

theorem encodeMembers_ok_iff (lib : Formatters) :
    ∀ (fs : List Field),
      (∃ ms, encodeMembers lib fs = .ok ms)
        ↔ ∀ f ∈ emitted fs, ∃ v, encodeValue lib f.value = .ok v
  | [] => by simp [encodeMembers, emitted]
  | f :: fs => by
    have ih := encodeMembers_ok_iff lib fs
    by_cases hskip : (f.omitEmpty && isEmptyValue f.value) = true
    · simp only [encodeMembers, hskip, if_true]
      rw [ih, emitted_cons_skip f fs hskip]
    · have hem : emitted (f :: fs) = f :: emitted fs := emitted_cons_keep f fs hskip
      simp only [encodeMembers, hskip, if_false, hem, List.forall_mem_cons]
      rw [← ih]
      cases hv : encodeValue lib f.value with
      | error err => simp
      | ok v =>
        cases hms : encodeMembers lib fs with
        | error err => simp
        | ok ms2 => simp

/-! ### Errors in the collection loop -/

theorem loop_error {ε : Type} (jm : MashStep → Bytes × Option ε) (s : MashStep)
    (post : List MashStep) (err : ε) (hs : (jm s).2 = some err) :
    ∀ (pre : List MashStep) (b : Bytes), (∀ x ∈ pre, (jm x).2 = none) →
      MarshalJSON.loop jm (pre ++ s :: post) b = .error err
  | [], b, _ => by
    rcases hjm : jm s with ⟨bb, e⟩
    rw [hjm] at hs
    simp only at hs
    subst hs
    simp [MarshalJSON.loop, hjm]
  | x :: pre, b, h => by
    have hx : (jm x).2 = none := h x (by simp)
    have hpre : ∀ y ∈ pre, (jm y).2 = none := fun y hy => h y (by simp [hy])
    rcases hjm : jm x with ⟨bb, e⟩
    rw [hjm] at hx
    simp only at hx
    subst hx
    simp only [List.cons_append, MarshalJSON.loop, hjm]
    exact loop_error jm s post err hs pre _ hpre

theorem marshal_error {ε : Type} (jm : MashStep → Bytes × Option ε)
    (pre : List MashStep) (s : MashStep) (post : List MashStep) (err : ε)
    (hpre : ∀ x ∈ pre, (jm x).2 = none) (hs : (jm s).2 = some err) :
    MashSteps.MarshalJSON jm ⟨pre ++ s :: post⟩ = .ret none (some err) := by
  have hlen : (pre ++ s :: post).length > 0 := by simp
  simp only [MashSteps.MarshalJSON, hlen, if_true]
  rw [loop_error jm s post err hs pre _ hpre]

theorem first_failure {ε : Type} (jm : MashStep → Bytes × Option ε) :
    ∀ (steps : List MashStep), (∃ s ∈ steps, (jm s).2 ≠ none) →
      ∃ pre s post err, steps = pre ++ s :: post ∧ (∀ x ∈ pre, (jm x).2 = none) ∧
        (jm s).2 = some err
  | [], h => by simp at h
  | x :: rest, h => by
    cases hx : (jm x).2 with
    | some err => exact ⟨[], x, rest, err, rfl, by simp, hx⟩
    | none =>
      have hrest : ∃ s ∈ rest, (jm s).2 ≠ none := by
        rcases h with ⟨s, hmem, hne⟩
        rcases List.mem_cons.mp hmem with rfl | hmem
        · exact absurd hx hne
        · exact ⟨s, hmem, hne⟩
      rcases first_failure jm rest hrest with ⟨pre, s, post, err, heq, hpre, hs⟩
      refine ⟨x :: pre, s, post, err, by simp [heq], ?_, hs⟩
      intro y hy
      rcases List.mem_cons.mp hy with rfl | hy
      · exact hx
      · exact hpre y hy

/-! ### Success of the record encoder -/

theorem isZero_isFinite (f : Float64) (h : f.isZero = true) : f.isFinite = true := by
  simp only [Float64.isZero, Bool.and_eq_true, beq_iff_eq] at h
  simp [Float64.isFinite, Float64.isInf, Float64.isNaN, h.1]

theorem floatEncoder_ok_iff (lib : Formatters) (f : Float64) :
    (∃ v, floatEncoder lib f = .ok v) ↔ f.isFinite = true := by
  unfold floatEncoder Float64.isFinite
  cases h : (f.isInf || f.isNaN) <;> simp

theorem jsonMarshal_ok_iff_members (lib : Formatters) (m : MashStep) :
    (jsonMarshal lib m).2 = none ↔ ∃ ms, encodeMembers lib m.fields = .ok ms := by
  unfold jsonMarshal
  rw [structEncoder_eq]
  cases h : encodeMembers lib m.fields <;> simp [Except.map]

theorem plainFloat_ok_iff (lib : Formatters) (f : Float64) :
    ((!(true && isEmptyValue (.plain (.float f)))) = true →
        ∃ v, encodeValue lib (.plain (.float f)) = .ok v) ↔ f.isFinite = true := by
  simp only [encodeValue, encodeScalar, isEmptyValue, floatEncoder_ok_iff, Bool.true_and]
  constructor
  · intro h
    cases hz : f.isZero with
    | true => exact isZero_isFinite f hz
    | false => exact h (by simp [hz])
  · intro h _
    exact h

theorem pointerFloat_ok_iff (lib : Formatters) (o : Option Float64) :
    ((!(true && isEmptyValue (.pointer (o.map Scalar.float)))) = true →
        ∃ v, encodeValue lib (.pointer (o.map Scalar.float)) = .ok v)
      ↔ o.all Float64.isFinite = true := by
  cases o with
  | none => simp [isEmptyValue]
  | some f => simp [isEmptyValue, encodeValue, encodeScalar, floatEncoder_ok_iff]

theorem pointerInt_ok (lib : Formatters) (o : Option Int) :
    ∃ v, encodeValue lib (.pointer (o.map Scalar.int)) = .ok v := by
  cases o with
  | none => exact ⟨_, rfl⟩
  | some i => exact ⟨_, rfl⟩

theorem jsonMarshal_ok_iff (lib : Formatters) (m : MashStep) :
    (jsonMarshal lib m).2 = none ↔ m.finiteFloats = true := by
  rw [jsonMarshal_ok_iff_members, encodeMembers_ok_iff]
  unfold emitted
  simp only [List.mem_filter, and_imp]
  simp only [MashStep.fields, List.forall_mem_cons, List.not_mem_nil, false_imp_iff,
    forall_true_iff, and_true]
  have hs : ∀ s, ∃ v, encodeValue lib (.plain (.string s)) = .ok v := fun s => ⟨_, rfl⟩
  have hi : ∀ i, ∃ v, encodeValue lib (.plain (.int i)) = .ok v := fun i => ⟨_, rfl⟩
  simp only [hs, hi, pointerInt_ok, implies_true, true_and, and_true, plainFloat_ok_iff,
    pointerFloat_ok_iff, MashStep.finiteFloats, Bool.and_eq_true]
  tauto

/-! ### Keys of the record's JSON object -/

theorem fields_names (m : MashStep) : m.fields.map Field.name = declaredKeys := rfl

theorem declaredKeys_nodup : declaredKeys.Nodup := by decide

theorem fields_omitEmpty (m : MashStep) : ∀ f ∈ m.fields, f.omitEmpty = true := by
  intro f hf
  simp only [MashStep.fields, List.mem_cons, List.mem_singleton, List.not_mem_nil,
    or_false] at hf
  rcases hf with h | h | h | h | h | h | h | h | h | h | h | h | h | h <;> rw [h]

theorem objectKeys_sublist (m : MashStep) : List.Sublist (objectKeys m) declaredKeys := by
  rw [← fields_names m]
  exact List.Sublist.map Field.name (List.filter_sublist _)

theorem omitted_of_empty (m : MashStep) (f : Field) (hf : f ∈ m.fields)
    (he : isEmptyValue f.value = true) : f.name ∉ objectKeys m := by
  intro hmem
  simp only [objectKeys, emitted, List.mem_map, List.mem_filter] at hmem
  rcases hmem with ⟨g, ⟨hg, hkeep⟩, hname⟩
  have hnd : (m.fields.map Field.name).Nodup := by
    rw [fields_names]
    exact declaredKeys_nodup
  have hgf : g = f := List.inj_on_of_nodup_map hnd hg hf hname
  subst hgf
  rw [fields_omitEmpty m g hg, he] at hkeep
  exact absurd hkeep (by decide)

theorem jsonMarshal_eq_members (lib : Formatters) (m : MashStep)
    (ms : List (String × Bytes)) (h : encodeMembers lib m.fields = .ok ms) :
    jsonMarshal lib m = (renderObject ms, none) := by
  unfold jsonMarshal
  rw [structEncoder_eq, h]
  rfl

theorem jsonMarshal_object (lib : Formatters) (m : MashStep) (b : Bytes)
    (h : jsonMarshal lib m = (b, none)) :
    ∃ ms, ms.map Prod.fst = objectKeys m ∧ b = renderObject ms := by
  have hok : (jsonMarshal lib m).2 = none := by rw [h]
  rcases (jsonMarshal_ok_iff_members lib m).mp hok with ⟨ms, hms⟩
  refine ⟨ms, encodeMembers_keys lib m.fields ms hms, ?_⟩
  rw [jsonMarshal_eq_members lib m ms hms] at h
  exact (Prod.mk.inj h).1.symm

theorem marshal_empty {ε : Type} (jm : MashStep → Bytes × Option ε) :
    MashSteps.MarshalJSON jm ⟨[]⟩ = .ret (some (ascii "[]")) none := by
  simp [MashSteps.MarshalJSON]
  decide

/-! ### The JSON parser and appended input -/

theorem delim_cases (t : Bytes) (h : startsDelim t = true) :
    t = [] ∨ ∃ c r, t = c :: r ∧ (c = 0x2C ∨ c = 0x5D ∨ c = 0x7D) := by
  cases t with
  | nil => exact Or.inl rfl
  | cons c r =>
    refine Or.inr ⟨c, r, rfl, ?_⟩
    simpa [startsDelim, or_assoc] using h

theorem skipWs_delim (t : Bytes) (h : startsDelim t = true) : skipWs t = t := by
  rcases delim_cases t h with rfl | ⟨c, r, rfl, rfl | rfl | rfl⟩ <;> rfl

theorem skipWs_append (t : Bytes) (h : startsDelim t = true) :
    ∀ s : Bytes, skipWs (s ++ t) = skipWs s ++ t
  | [] => by simpa [skipWs] using skipWs_delim t h
  | c :: s => by
    by_cases hc : isWs c = true
    · simp only [List.cons_append, skipWs, hc, if_true]
      exact skipWs_append t h s
    · simp only [List.cons_append, skipWs, hc, if_false]
      rfl

theorem takeDigits_delim (t : Bytes) (h : startsDelim t = true) :
    t.takeWhile isDigit = [] ∧ t.dropWhile isDigit = t := by
  rcases delim_cases t h with rfl | ⟨c, r, rfl, rfl | rfl | rfl⟩ <;> exact ⟨rfl, rfl⟩

theorem takeDigits_append (t : Bytes) (h : startsDelim t = true) :
    ∀ s : Bytes, (s ++ t).takeWhile isDigit = s.takeWhile isDigit ∧
      (s ++ t).dropWhile isDigit = s.dropWhile isDigit ++ t
  | [] => by simpa using takeDigits_delim t h
  | c :: s => by
    have ih := takeDigits_append t h s
    by_cases hc : isDigit c = true
    · simp [List.takeWhile, List.dropWhile, hc, ih.1, ih.2]
    · simp [List.takeWhile, List.dropWhile, hc]

theorem scanString_normal (c : UInt8) (r : Bytes) :
    scanString .normal (c :: r) =
      if c = 0x22 then some ([], r)
      else if c = 0x5C then consFst c (scanString .escape r)
      else if c < 0x20 then none
      else consFst c (scanString .normal r) := by
  simp only [scanString]

theorem scanString_escape (c : UInt8) (r : Bytes) :
    scanString .escape (c :: r) =
      if c = 0x75 then consFst c (scanString (.hex 3) r)
      else if isEscape c then consFst c (scanString .normal r)
      else none := by
  simp only [scanString]

theorem scanString_hex (k : Nat) (c : UInt8) (r : Bytes) :
    scanString (.hex k) (c :: r) =
      if isHex c then consFst c (scanString (hexNext k) r) else none := by
  simp only [scanString]

theorem consFst_lift (c : UInt8) (t : Bytes) (o o2 : Option (Bytes × Bytes))
    (H : ∀ b r, o = some (b, r) → o2 = some (b, r ++ t)) :
    ∀ b r, consFst c o = some (b, r) → consFst c o2 = some (b, r ++ t) := by
  intro b r h
  cases o with
  | none => simp [consFst] at h
  | some p =>
    rw [H p.1 p.2 rfl]
    simp only [consFst, Option.map_some', Option.some.injEq, Prod.mk.injEq] at h ⊢
    exact ⟨h.1, by rw [h.2]⟩

theorem scanString_append (t : Bytes) :
    ∀ (s : Bytes) (m : StrMode) (b r : Bytes), scanString m s = some (b, r) →
      scanString m (s ++ t) = some (b, r ++ t)
  | [], m, b, r, h => by
    cases m <;> simp [scanString] at h
  | c :: s, .normal, b, r, h => by
    rw [List.cons_append, scanString_normal]
    rw [scanString_normal] at h
    split_ifs at h ⊢ with h1 h2 h3
    · simp only [Option.some.injEq, Prod.mk.injEq] at h ⊢
      exact ⟨h.1, by rw [h.2]⟩
    · exact consFst_lift c t _ _ (scanString_append t s .escape) b r h
    · exact consFst_lift c t _ _ (scanString_append t s .normal) b r h
  | c :: s, .escape, b, r, h => by
    rw [List.cons_append, scanString_escape]
    rw [scanString_escape] at h
    split_ifs at h ⊢ with h1 h2
    · exact consFst_lift c t _ _ (scanString_append t s (.hex 3)) b r h
    · exact consFst_lift c t _ _ (scanString_append t s .normal) b r h
  | c :: s, .hex k, b, r, h => by
    rw [List.cons_append, scanString_hex]
    rw [scanString_hex] at h
    split_ifs at h ⊢ with h1
    · exact consFst_lift c t _ _ (scanString_append t s (hexNext k)) b r h

theorem expect_append (t : Bytes) :
    ∀ (lit s r : Bytes), expect lit s = some r → expect lit (s ++ t) = some (r ++ t)
  | [], s, r, h => by
    simp only [expect, Option.some.injEq] at h ⊢
    rw [h]
  | a :: lit, [], r, h => by simp [expect] at h
  | a :: lit, c :: s, r, h => by
    simp only [List.cons_append, expect] at h ⊢
    by_cases hac : a = c
    · simp only [hac, if_true] at h ⊢
      exact expect_append t lit s r h
    · simp [hac] at h

theorem scanSign_append (t : Bytes) (h : startsDelim t = true) (s : Bytes) :
    scanSign (s ++ t) = ((scanSign s).1, (scanSign s).2 ++ t) := by
  cases s with
  | nil =>
    rcases delim_cases t h with rfl | ⟨c, r, rfl, rfl | rfl | rfl⟩ <;> rfl
  | cons d r =>
    simp only [List.cons_append, scanSign]
    split_ifs <;> rfl

theorem scanMinus_append (t : Bytes) (h : startsDelim t = true) (s : Bytes) :
    scanMinus (s ++ t) = ((scanMinus s).1, (scanMinus s).2 ++ t) := by
  cases s with
  | nil =>
    rcases delim_cases t h with rfl | ⟨c, r, rfl, rfl | rfl | rfl⟩ <;> rfl
  | cons d r =>
    simp only [List.cons_append, scanMinus]
    split_ifs <;> rfl

theorem scanInt_append (t : Bytes) (h : startsDelim t = true) (s i r : Bytes)
    (hs : scanInt s = some (i, r)) : scanInt (s ++ t) = some (i, r ++ t) := by
  cases s with
  | nil => simp [scanInt] at hs
  | cons c s =>
    have hd := takeDigits_append t h s
    simp only [List.cons_append, scanInt] at hs ⊢
    split_ifs at hs ⊢ with h1 h2
    · simp only [Option.some.injEq, Prod.mk.injEq] at hs ⊢
      exact ⟨hs.1, by rw [hs.2]⟩
    · simp only [Option.some.injEq, Prod.mk.injEq] at hs ⊢
      rw [hd.1, hd.2]
      exact ⟨hs.1, by rw [hs.2]⟩

theorem scanFrac_append (t : Bytes) (h : startsDelim t = true) (s f r : Bytes)
    (hs : scanFrac s = some (f, r)) : scanFrac (s ++ t) = some (f, r ++ t) := by
  cases s with
  | nil =>
    simp only [scanFrac, Option.some.injEq, Prod.mk.injEq] at hs
    rw [← hs.1, ← hs.2]
    rcases delim_cases t h with rfl | ⟨c, r, rfl, rfl | rfl | rfl⟩ <;> rfl
  | cons c s =>
    have hd := takeDigits_append t h s
    simp only [List.cons_append, scanFrac] at hs ⊢
    rw [hd.1, hd.2]
    split_ifs at hs ⊢ with h1 h2
    · simp only [Option.some.injEq, Prod.mk.injEq] at hs ⊢
      exact ⟨hs.1, by rw [hs.2]⟩
    · simp only [Option.some.injEq, Prod.mk.injEq] at hs ⊢
      exact ⟨hs.1, by rw [← hs.2]; rfl⟩

theorem scanExp_append (t : Bytes) (h : startsDelim t = true) (s e r : Bytes)
    (hs : scanExp s = some (e, r)) : scanExp (s ++ t) = some (e, r ++ t) := by
  cases s with
  | nil =>
    simp only [scanExp, Option.some.injEq, Prod.mk.injEq] at hs
    rw [← hs.1, ← hs.2]
    rcases delim_cases t h with rfl | ⟨c, r, rfl, rfl | rfl | rfl⟩ <;> rfl
  | cons c s =>
    have hd := takeDigits_append t h (scanSign s).2
    simp only [List.cons_append, scanExp] at hs ⊢
    rw [scanSign_append t h s]
    simp only []
    rw [hd.1, hd.2]
    split_ifs at hs ⊢ with h1 h2
    · simp only [Option.some.injEq, Prod.mk.injEq] at hs ⊢
      exact ⟨hs.1, by rw [hs.2]⟩
    · simp only [Option.some.injEq, Prod.mk.injEq] at hs ⊢
      exact ⟨hs.1, by rw [← hs.2]; rfl⟩

theorem scanNumber_append (t : Bytes) (h : startsDelim t = true) (s x r : Bytes)
    (hs : scanNumber s = some (x, r)) : scanNumber (s ++ t) = some (x, r ++ t) := by
  unfold scanNumber at hs ⊢
  rw [scanMinus_append t h s]
  simp only []
  cases hi : scanInt (scanMinus s).2 with
  | none => simp [hi] at hs
  | some p =>
    rcases p with ⟨i, s2⟩
    rw [hi] at hs
    rw [scanInt_append t h _ i s2 hi]
    simp only [] at hs ⊢
    cases hf : scanFrac s2 with
    | none => simp [hf] at hs
    | some p =>
      rcases p with ⟨f, s3⟩
      rw [hf] at hs
      rw [scanFrac_append t h _ f s3 hf]
      simp only [] at hs ⊢
      cases he : scanExp s3 with
      | none => simp [he] at hs
      | some p =>
        rcases p with ⟨e, s4⟩
        rw [he] at hs
        rw [scanExp_append t h _ e s4 he]
        simp only [Option.some.injEq, Prod.mk.injEq] at hs ⊢
        exact ⟨hs.1, by rw [hs.2]⟩

theorem parseElems_succ (pv : Bytes → Option (JValue × Bytes)) (k : Nat) (s : Bytes) :
    parseElems pv (k + 1) s =
      match pv (skipWs s) with
      | none => none
      | some (v, r) =>
        match skipWs r with
        | [] => none
        | c :: r2 =>
          if c = 0x2C then (parseElems pv k r2).map (fun p => (v :: p.1, p.2))
          else if c = 0x5D then some ([v], r2)
          else none := by
  simp only [parseElems]

theorem parseElems_append (t : Bytes) (h : startsDelim t = true)
    (pv : Bytes → Option (JValue × Bytes))
    (hpv : ∀ s v r, pv s = some (v, r) → pv (s ++ t) = some (v, r ++ t)) :
    ∀ (k : Nat) (s : Bytes) (vs : List JValue) (r : Bytes),
      parseElems pv k s = some (vs, r) → parseElems pv k (s ++ t) = some (vs, r ++ t)
  | 0, s, vs, r, hs => by simp [parseElems] at hs
  | k + 1, s, vs, r, hs => by
    rw [parseElems_succ] at hs ⊢
    rw [skipWs_append t h s]
    cases hv : pv (skipWs s) with
    | none => simp [hv] at hs
    | some p =>
      rcases p with ⟨v, r1⟩
      rw [hv] at hs
      rw [hpv _ v r1 hv]
      simp only [] at hs ⊢
      rw [skipWs_append t h r1]
      cases hw : skipWs r1 with
      | nil => simp [hw] at hs
      | cons c r2 =>
        rw [hw] at hs
        simp only [List.cons_append] at hs ⊢
        split_ifs at hs ⊢ with h1 h2
        · cases hrec : parseElems pv k r2 with
          | none => simp [hrec] at hs
          | some q =>
            rcases q with ⟨vs2, r3⟩
            rw [hrec] at hs
            rw [parseElems_append t h pv hpv k r2 vs2 r3 hrec]
            simp only [Option.map_some', Option.some.injEq, Prod.mk.injEq] at hs ⊢
            exact ⟨hs.1, by rw [hs.2]⟩
        · simp only [Option.some.injEq, Prod.mk.injEq] at hs ⊢
          exact ⟨hs.1, by rw [hs.2]⟩

theorem parseMembers_succ (pv : Bytes → Option (JValue × Bytes)) (k : Nat) (s : Bytes) :
    parseMembers pv (k + 1) s =
      match skipWs s with
      | [] => none
      | q :: r0 =>
        if q = 0x22 then
          match scanString .normal r0 with
          | none => none
          | some (key, r1) =>
            match skipWs r1 with
            | [] => none
            | col :: r2 =>
              if col = 0x3A then
                match pv (skipWs r2) with
                | none => none
                | some (v, r3) =>
                  match skipWs r3 with
                  | [] => none
                  | c :: r4 =>
                    if c = 0x2C then
                      (parseMembers pv k r4).map (fun p => ((key, v) :: p.1, p.2))
                    else if c = 0x7D then some ([(key, v)], r4)
                    else none
              else none
        else none := by
  simp only [parseMembers]

theorem parseMembers_append (t : Bytes) (h : startsDelim t = true)
    (pv : Bytes → Option (JValue × Bytes))
    (hpv : ∀ s v r, pv s = some (v, r) → pv (s ++ t) = some (v, r ++ t)) :
    ∀ (k : Nat) (s : Bytes) (ms : List (Bytes × JValue)) (r : Bytes),
      parseMembers pv k s = some (ms, r) → parseMembers pv k (s ++ t) = some (ms, r ++ t)
  | 0, s, ms, r, hs => by simp [parseMembers] at hs
  | k + 1, s, ms, r, hs => by
    rw [parseMembers_succ] at hs ⊢
    rw [skipWs_append t h s]
    cases hw0 : skipWs s with
    | nil => simp [hw0] at hs
    | cons q r0 =>
      rw [hw0] at hs
      simp only [List.cons_append] at hs ⊢
      split_ifs at hs ⊢ with hq
      cases hk : scanString .normal r0 with
      | none => simp [hk] at hs
      | some p =>
        rcases p with ⟨key, r1⟩
        rw [hk] at hs
        rw [scanString_append t r0 .normal key r1 hk]
        simp only [] at hs ⊢
        rw [skipWs_append t h r1]
        cases hw1 : skipWs r1 with
        | nil => simp [hw1] at hs
        | cons col r2 =>
          rw [hw1] at hs
          simp only [List.cons_append] at hs ⊢
          split_ifs at hs ⊢ with hcol
          rw [skipWs_append t h r2]
          cases hv : pv (skipWs r2) with
          | none => simp [hv] at hs
          | some p =>
            rcases p with ⟨v, r3⟩
            rw [hv] at hs
            rw [hpv _ v r3 hv]
            simp only [] at hs ⊢
            rw [skipWs_append t h r3]
            cases hw3 : skipWs r3 with
            | nil => simp [hw3] at hs
            | cons c r4 =>
              rw [hw3] at hs
              simp only [List.cons_append] at hs ⊢
              split_ifs at hs ⊢ with h1 h2
              · cases hrec : parseMembers pv k r4 with
                | none => simp [hrec] at hs
                | some q2 =>
                  rcases q2 with ⟨ms2, r5⟩
                  rw [hrec] at hs
                  rw [parseMembers_append t h pv hpv k r4 ms2 r5 hrec]
                  simp only [Option.map_some', Option.some.injEq, Prod.mk.injEq] at hs ⊢
                  exact ⟨hs.1, by rw [hs.2]⟩
              · simp only [Option.some.injEq, Prod.mk.injEq] at hs ⊢
                exact ⟨hs.1, by rw [hs.2]⟩

theorem parseValue_succ (n : Nat) (c : UInt8) (r : Bytes) :
    parseValue (n + 1) (c :: r) =
      if c = 0x22 then (scanString .normal r).map (fun p => (JValue.string p.1, p.2))
      else if c = 0x5B then
        match skipWs r with
        | [] => none
        | c2 :: r2 =>
          if c2 = 0x5D then some (JValue.array [], r2)
          else (parseElems (parseValue n) n r).map (fun p => (JValue.array p.1, p.2))
      else if c = 0x7B then
        match skipWs r with
        | [] => none
        | c2 :: r2 =>
          if c2 = 0x7D then some (JValue.object [], r2)
          else (parseMembers (parseValue n) n r).map (fun p => (JValue.object p.1, p.2))
      else if c = 0x74 then (expect (ascii "rue") r).map (fun r2 => (JValue.bool true, r2))
      else if c = 0x66 then (expect (ascii "alse") r).map (fun r2 => (JValue.bool false, r2))
      else if c = 0x6E then (expect (ascii "ull") r).map (fun r2 => (JValue.null, r2))
      else (scanNumber (c :: r)).map (fun p => (JValue.number p.1, p.2)) := by
  simp only [parseValue]

theorem parseValue_append (t : Bytes) (h : startsDelim t = true) :
    ∀ (n : Nat) (s : Bytes) (v : JValue) (r : Bytes),
      parseValue n s = some (v, r) → parseValue n (s ++ t) = some (v, r ++ t)
  | 0, s, v, r, hs => by simp [parseValue] at hs
  | n + 1, [], v, r, hs => by simp [parseValue] at hs
  | n + 1, c :: s, v, r, hs => by
    have ih := parseValue_append t h n
    rw [List.cons_append, parseValue_succ]
    rw [parseValue_succ] at hs
    split_ifs at hs ⊢ with h1 h2 h3 h4 h5 h6
    · cases hk : scanString .normal s with
      | none => simp [hk] at hs
      | some p =>
        rw [hk] at hs
        rw [scanString_append t s .normal p.1 p.2 hk]
        simp only [Option.map_some', Option.some.injEq, Prod.mk.injEq] at hs ⊢
        exact ⟨hs.1, by rw [hs.2]⟩
    · rw [skipWs_append t h s]
      cases hw : skipWs s with
      | nil => simp [hw] at hs
      | cons c2 r2 =>
        rw [hw] at hs
        simp only [List.cons_append] at hs ⊢
        split_ifs at hs ⊢ with hc
        · simp only [Option.some.injEq, Prod.mk.injEq] at hs ⊢
          exact ⟨hs.1, by rw [hs.2]⟩
        · cases he : parseElems (parseValue n) n s with
          | none => simp [he] at hs
          | some p =>
            rw [he] at hs
            rw [parseElems_append t h _ ih n s p.1 p.2 he]
            simp only [Option.map_some', Option.some.injEq, Prod.mk.injEq] at hs ⊢
            exact ⟨hs.1, by rw [hs.2]⟩
    · rw [skipWs_append t h s]
      cases hw : skipWs s with
      | nil => simp [hw] at hs
      | cons c2 r2 =>
        rw [hw] at hs
        simp only [List.cons_append] at hs ⊢
        split_ifs at hs ⊢ with hc
        · simp only [Option.some.injEq, Prod.mk.injEq] at hs ⊢
          exact ⟨hs.1, by rw [hs.2]⟩
        · cases he : parseMembers (parseValue n) n s with
          | none => simp [he] at hs
          | some p =>
            rw [he] at hs
            rw [parseMembers_append t h _ ih n s p.1 p.2 he]
            simp only [Option.map_some', Option.some.injEq, Prod.mk.injEq] at hs ⊢
            exact ⟨hs.1, by rw [hs.2]⟩
    · cases he : expect (ascii "rue") s with
      | none => simp [he] at hs
      | some r2 =>
        rw [he] at hs
        rw [expect_append t _ s r2 he]
        simp only [Option.map_some', Option.some.injEq, Prod.mk.injEq] at hs ⊢
        exact ⟨hs.1, by rw [hs.2]⟩
    · cases he : expect (ascii "alse") s with
      | none => simp [he] at hs
      | some r2 =>
        rw [he] at hs
        rw [expect_append t _ s r2 he]
        simp only [Option.map_some', Option.some.injEq, Prod.mk.injEq] at hs ⊢
        exact ⟨hs.1, by rw [hs.2]⟩
    · cases he : expect (ascii "ull") s with
      | none => simp [he] at hs
      | some r2 =>
        rw [he] at hs
        rw [expect_append t _ s r2 he]
        simp only [Option.map_some', Option.some.injEq, Prod.mk.injEq] at hs ⊢
        exact ⟨hs.1, by rw [hs.2]⟩
    · cases hk : scanNumber (c :: s) with
      | none => simp [hk] at hs
      | some p =>
        rw [hk] at hs
        have := scanNumber_append t h (c :: s) p.1 p.2 hk
        rw [List.cons_append] at this
        rw [this]
        simp only [Option.map_some', Option.some.injEq, Prod.mk.injEq] at hs ⊢
        exact ⟨hs.1, by rw [hs.2]⟩

/-! ### The JSON parser and more fuel -/

theorem parseElems_mono (pv pv2 : Bytes → Option (JValue × Bytes))
    (hpv : ∀ s x, pv s = some x → pv2 s = some x) :
    ∀ (k k2 : Nat) (s : Bytes) (y : List JValue × Bytes), k ≤ k2 →
      parseElems pv k s = some y → parseElems pv2 k2 s = some y
  | 0, _, s, y, _, hs => by simp [parseElems] at hs
  | k + 1, 0, s, y, hk, _ => by omega
  | k + 1, k2 + 1, s, y, hk, hs => by
    rw [parseElems_succ] at hs ⊢
    cases hv : pv (skipWs s) with
    | none => simp [hv] at hs
    | some p =>
      rcases p with ⟨v, r1⟩
      rw [hv] at hs
      rw [hpv _ _ hv]
      simp only [] at hs ⊢
      cases hw : skipWs r1 with
      | nil => simp [hw] at hs
      | cons c r2 =>
        rw [hw] at hs
        simp only [] at hs ⊢
        split_ifs at hs ⊢ with h1 h2
        · cases hrec : parseElems pv k r2 with
          | none => simp [hrec] at hs
          | some q =>
            rw [hrec] at hs
            rw [parseElems_mono pv pv2 hpv k k2 r2 q (by omega) hrec]
            exact hs
        · exact hs

theorem parseMembers_mono (pv pv2 : Bytes → Option (JValue × Bytes))
    (hpv : ∀ s x, pv s = some x → pv2 s = some x) :
    ∀ (k k2 : Nat) (s : Bytes) (y : List (Bytes × JValue) × Bytes), k ≤ k2 →
      parseMembers pv k s = some y → parseMembers pv2 k2 s = some y
  | 0, _, s, y, _, hs => by simp [parseMembers] at hs
  | k + 1, 0, s, y, hk, _ => by omega
  | k + 1, k2 + 1, s, y, hk, hs => by
    rw [parseMembers_succ] at hs ⊢
    cases hw0 : skipWs s with
    | nil => simp [hw0] at hs
    | cons q r0 =>
      rw [hw0] at hs
      simp only [] at hs ⊢
      split_ifs at hs ⊢ with hq
      cases hk : scanString .normal r0 with
      | none => simp [hk] at hs
      | some p =>
        rcases p with ⟨key, r1⟩
        rw [hk] at hs
        simp only [] at hs ⊢
        cases hw1 : skipWs r1 with
        | nil => simp [hw1] at hs
        | cons col r2 =>
          rw [hw1] at hs
          simp only [] at hs ⊢
          split_ifs at hs ⊢ with hcol
          cases hv : pv (skipWs r2) with
          | none => simp [hv] at hs
          | some p =>
            rcases p with ⟨v, r3⟩
            rw [hv] at hs
            rw [hpv _ _ hv]
            simp only [] at hs ⊢
            cases hw3 : skipWs r3 with
            | nil => simp [hw3] at hs
            | cons c r4 =>
              rw [hw3] at hs
              simp only [] at hs ⊢
              split_ifs at hs ⊢ with h1 h2
              · cases hrec : parseMembers pv k r4 with
                | none => simp [hrec] at hs
                | some q2 =>
                  rw [hrec] at hs
                  rw [parseMembers_mono pv pv2 hpv k k2 r4 q2 (by omega) hrec]
                  exact hs
              · exact hs

theorem parseValue_mono :
    ∀ (n m : Nat) (s : Bytes) (x : JValue × Bytes), n ≤ m →
      parseValue n s = some x → parseValue m s = some x
  | 0, _, s, x, _, hs => by simp [parseValue] at hs
  | n + 1, 0, s, x, hnm, _ => by omega
  | n + 1, m + 1, [], x, _, hs => by simp [parseValue] at hs
  | n + 1, m + 1, c :: s, x, hnm, hs => by
    have ih : ∀ s x, parseValue n s = some x → parseValue m s = some x :=
      fun s x => parseValue_mono n m s x (by omega)
    rw [parseValue_succ] at hs ⊢
    split_ifs at hs ⊢ with h1 h2 h3 h4 h5 h6
    · exact hs
    · cases hw : skipWs s with
      | nil => simp [hw] at hs
      | cons c2 r2 =>
        rw [hw] at hs
        simp only [] at hs ⊢
        split_ifs at hs ⊢ with hc
        · exact hs
        · cases he : parseElems (parseValue n) n s with
          | none => simp [he] at hs
          | some p =>
            rw [he] at hs
            rw [parseElems_mono _ _ ih n m s p (by omega) he]
            exact hs
    · cases hw : skipWs s with
      | nil => simp [hw] at hs
      | cons c2 r2 =>
        rw [hw] at hs
        simp only [] at hs ⊢
        split_ifs at hs ⊢ with hc
        · exact hs
        · cases he : parseMembers (parseValue n) n s with
          | none => simp [he] at hs
          | some p =>
            rw [he] at hs
            rw [parseMembers_mono _ _ ih n m s p (by omega) he]
            exact hs
    · exact hs
    · exact hs
    · exact hs
    · exact hs

/-! ### Parsing the output of `MarshalJSON` -/

theorem parseValue_closing (n : Nat) (r : Bytes) : parseValue n (0x5D :: r) = none := by
  cases n with
  | zero => rfl
  | succ n =>
    rw [parseValue_succ]
    simp [scanNumber, scanMinus, scanInt, isDigit]

theorem parseJson_some (e : Bytes) (v : JValue) (h : parseJson e = some v) :
    ∃ r, parseValue (e.length + 1) (skipWs e) = some (v, r) ∧ skipWs r = [] := by
  unfold parseJson at h
  cases hp : parseValue (e.length + 1) (skipWs e) with
  | none => simp [hp] at h
  | some p =>
    rcases p with ⟨v2, r⟩
    rw [hp] at h
    simp only [] at h
    cases hw : skipWs r with
    | nil =>
      rw [hw] at h
      simp only [Option.some.injEq] at h
      exact ⟨r, by rw [h], hw⟩
    | cons c r2 => simp [hw] at h

theorem intercalate_cons_cons (sep e e2 : Bytes) (es : List Bytes) :
    List.intercalate sep (e :: e2 :: es) = e ++ sep ++ List.intercalate sep (e2 :: es) := by
  simp [List.intercalate, List.append_assoc]

theorem intercalate_bounds (c : UInt8) :
    ∀ encs : List Bytes, (∀ e ∈ encs, e.length ≤ (List.intercalate [c] encs).length) ∧
      encs.length ≤ (List.intercalate [c] encs).length + 1
  | [] => by simp
  | [e] => by simp [List.intercalate]
  | e :: e2 :: es => by
    have ih := intercalate_bounds c (e2 :: es)
    rw [intercalate_cons_cons]
    constructor
    · intro x hx
      rcases List.mem_cons.mp hx with rfl | hx
      · simp only [List.length_append]
        omega
      · have := ih.1 x hx
        simp only [List.length_append]
        omega
    · have := ih.2
      simp only [List.length_append, List.length_cons, List.length_nil] at this ⊢
      omega

theorem parseElems_intercalate (n : Nat) (t : Bytes) :
    ∀ (encs : List Bytes) (vs : List JValue) (k : Nat),
      List.Forall₂ (fun e v => parseJson e = some v) encs vs → encs ≠ [] →
      (∀ e ∈ encs, e.length + 1 ≤ n) → encs.length ≤ k →
      parseElems (parseValue n) k (List.intercalate [0x2C] encs ++ 0x5D :: t) = some (vs, t)
  | [], _, _, _, hne, _, _ => absurd rfl hne
  | _ :: _, _, 0, _, _, _, hk => by simp at hk
  | e :: rest, vs, k + 1, hall, _, hn, hk => by
    cases hall with
    | cons hev hrest =>
      rename_i v vs2
      rcases parseJson_some e v hev with ⟨r, hp, hr⟩
      have hfuel : e.length + 1 ≤ n := hn e (by simp)
      have hp2 := parseValue_mono _ n _ _ hfuel hp
      cases rest with
      | nil =>
        cases hrest
        have hd : startsDelim (0x5D :: t) = true := rfl
        have hin : List.intercalate [0x2C] [e] = e := by simp [List.intercalate]
        rw [hin, parseElems_succ, skipWs_append _ hd e,
          parseValue_append _ hd n _ v r hp2]
        simp only []
        rw [skipWs_append _ hd r, hr]
        simp
      | cons e2 es =>
        have hd : startsDelim (0x2C :: (List.intercalate [0x2C] (e2 :: es) ++ 0x5D :: t)) = true :=
          rfl
        have hin : List.intercalate [0x2C] (e :: e2 :: es) ++ 0x5D :: t
            = e ++ 0x2C :: (List.intercalate [0x2C] (e2 :: es) ++ 0x5D :: t) := by
          rw [intercalate_cons_cons]
          simp [List.append_assoc]
        have ih := parseElems_intercalate n t (e2 :: es) vs2 k hrest (by simp)
          (fun x hx => hn x (by simp [hx])) (by simpa using hk)
        rw [hin, parseElems_succ, skipWs_append _ hd e,
          parseValue_append _ hd n _ v r hp2]
        simp only []
        rw [skipWs_append _ hd r, hr]
        simp [ih]

theorem parses_exist :
    ∀ encs : List Bytes, (∀ e ∈ encs, (parseJson e).isSome = true) →
      ∃ vs, List.Forall₂ (fun e v => parseJson e = some v) encs vs
  | [], _ => ⟨[], List.Forall₂.nil⟩
  | e :: rest, h => by
    rcases parses_exist rest (fun x hx => h x (by simp [hx])) with ⟨vs, hvs⟩
    rcases Option.isSome_iff_exists.mp (h e (by simp)) with ⟨v, hv⟩
    exact ⟨v :: vs, List.Forall₂.cons hv hvs⟩

theorem forall2_map_some :
    ∀ (encs : List Bytes) (vs : List JValue),
      List.Forall₂ (fun e v => parseJson e = some v) encs vs →
      encs.map parseJson = vs.map some
  | _, _, .nil => rfl
  | _, _, .cons hv hrest => by
    simp [hv, forall2_map_some _ _ hrest]

theorem intercalate_head (e : Bytes) (rest : List Bytes) :
    ∃ tl, List.intercalate [0x2C] (e :: rest) ++ [0x5D] = e ++ tl ∧ startsDelim tl = true := by
  cases rest with
  | nil => exact ⟨[0x5D], by simp [List.intercalate], rfl⟩
  | cons e2 es =>
    refine ⟨0x2C :: (List.intercalate [0x2C] (e2 :: es) ++ [0x5D]), ?_, rfl⟩
    rw [intercalate_cons_cons]
    simp [List.append_assoc]

theorem parseJson_array (encs : List Bytes) (vs : List JValue)
    (hall : List.Forall₂ (fun e v => parseJson e = some v) encs vs) (hne : encs ≠ []) :
    parseJson (0x5B :: (List.intercalate [0x2C] encs ++ [0x5D])) = some (JValue.array vs) := by
  have hb := intercalate_bounds 0x2C encs
  have hel := parseElems_intercalate ((List.intercalate [0x2C] encs ++ [0x5D]).length + 1) []
    encs vs ((List.intercalate [0x2C] encs ++ [0x5D]).length + 1) hall hne
    (by
      intro e he
      have := hb.1 e he
      simp only [List.length_append, List.length_cons, List.length_nil]
      omega)
    (by
      have := hb.2
      simp only [List.length_append, List.length_cons, List.length_nil]
      omega)
  obtain ⟨e, rest, rfl⟩ := List.exists_cons_of_ne_nil hne
  obtain ⟨tl, htl, hd⟩ := intercalate_head e rest
  have hfirst : ∃ c0 r0, skipWs (List.intercalate [0x2C] (e :: rest) ++ [0x5D]) = c0 :: r0 ∧
      c0 ≠ 0x5D := by
    cases hall with
    | cons hev hrest =>
      rename_i v vs2
      rcases parseJson_some e v hev with ⟨r, hp, hr⟩
      rw [htl, skipWs_append tl hd e]
      cases hse : skipWs e with
      | nil => simp [hse, parseValue] at hp
      | cons c0 e0 =>
        refine ⟨c0, e0 ++ tl, rfl, ?_⟩
        intro hc
        rw [hse, hc, parseValue_closing] at hp
        simp at hp
  obtain ⟨c0, r0, hsk, hc0⟩ := hfirst
  have hws : skipWs (0x5B :: (List.intercalate [0x2C] (e :: rest) ++ [0x5D]))
      = 0x5B :: (List.intercalate [0x2C] (e :: rest) ++ [0x5D]) := rfl
  unfold parseJson
  rw [hws, List.length_cons, parseValue_succ]
  have h1 : ¬ ((0x5B : UInt8) = 0x22) := by decide
  rw [if_neg h1, if_pos rfl, hsk]
  simp only []
  rw [if_neg hc0, hel]
  rfl

/-! ### The JSON parser consumes input, and fuel equal to the length is enough -/

theorem skipWs_length : ∀ s : Bytes, (skipWs s).length ≤ s.length
  | [] => Nat.le_refl _
  | c :: s => by
    have ih := skipWs_length s
    simp only [skipWs]
    split_ifs
    · simp only [List.length_cons]
      omega
    · exact Nat.le_refl _

theorem dropDigits_length (s : Bytes) : (s.dropWhile isDigit).length ≤ s.length :=
  (List.dropWhile_sublist isDigit).length_le

theorem consFst_length (c : UInt8) (o : Option (Bytes × Bytes)) (n : Nat)
    (H : ∀ b r, o = some (b, r) → r.length < n) :
    ∀ b r, consFst c o = some (b, r) → r.length < n + 1 := by
  intro b r h
  cases o with
  | none => simp [consFst] at h
  | some p =>
    simp only [consFst, Option.map_some', Option.some.injEq, Prod.mk.injEq] at h
    have := H p.1 p.2 rfl
    rw [← h.2]
    omega

theorem scanString_length :
    ∀ (s : Bytes) (m : StrMode) (b r : Bytes), scanString m s = some (b, r) →
      r.length < s.length
  | [], m, b, r, h => by
    cases m <;> simp [scanString] at h
  | c :: s, .normal, b, r, h => by
    rw [scanString_normal] at h
    split_ifs at h with h1 h2 h3
    · simp only [Option.some.injEq, Prod.mk.injEq] at h
      rw [← h.2]
      simp
    · exact consFst_length c _ _ (scanString_length s .escape) b r h
    · exact consFst_length c _ _ (scanString_length s .normal) b r h
  | c :: s, .escape, b, r, h => by
    rw [scanString_escape] at h
    split_ifs at h with h1 h2
    · exact consFst_length c _ _ (scanString_length s (.hex 3)) b r h
    · exact consFst_length c _ _ (scanString_length s .normal) b r h
  | c :: s, .hex k, b, r, h => by
    rw [scanString_hex] at h
    split_ifs at h with h1
    · exact consFst_length c _ _ (scanString_length s (hexNext k)) b r h

theorem expect_length :
    ∀ (lit s r : Bytes), expect lit s = some r → r.length ≤ s.length
  | [], s, r, h => by
    simp only [expect, Option.some.injEq] at h
    rw [h]
  | a :: lit, [], r, h => by simp [expect] at h
  | a :: lit, c :: s, r, h => by
    simp only [expect] at h
    split_ifs at h with hac
    · have := expect_length lit s r h
      simp only [List.length_cons]
      omega

theorem scanSign_length (s : Bytes) : (scanSign s).2.length ≤ s.length := by
  cases s with
  | nil => simp [scanSign]
  | cons d r =>
    simp only [scanSign]
    split_ifs <;> simp

theorem scanMinus_length (s : Bytes) : (scanMinus s).2.length ≤ s.length := by
  cases s with
  | nil => simp [scanMinus]
  | cons d r =>
    simp only [scanMinus]
    split_ifs <;> simp

theorem scanInt_length (s i r : Bytes) (hs : scanInt s = some (i, r)) :
    r.length < s.length := by
  cases s with
  | nil => simp [scanInt] at hs
  | cons c s =>
    have hd := dropDigits_length s
    simp only [scanInt] at hs
    split_ifs at hs with h1 h2
    · simp only [Option.some.injEq, Prod.mk.injEq] at hs
      rw [← hs.2]
      simp
    · simp only [Option.some.injEq, Prod.mk.injEq] at hs
      rw [← hs.2]
      simp only [List.length_cons]
      omega

theorem scanFrac_length (s f r : Bytes) (hs : scanFrac s = some (f, r)) :
    r.length ≤ s.length := by
  cases s with
  | nil =>
    simp only [scanFrac, Option.some.injEq, Prod.mk.injEq] at hs
    rw [← hs.2]
  | cons c s =>
    have hd := dropDigits_length s
    simp only [scanFrac] at hs
    split_ifs at hs with h1 h2
    · simp only [Option.some.injEq, Prod.mk.injEq] at hs
      rw [← hs.2]
      simp only [List.length_cons]
      omega
    · simp only [Option.some.injEq, Prod.mk.injEq] at hs
      rw [← hs.2]

theorem scanExp_length (s e r : Bytes) (hs : scanExp s = some (e, r)) :
    r.length ≤ s.length := by
  cases s with
  | nil =>
    simp only [scanExp, Option.some.injEq, Prod.mk.injEq] at hs
    rw [← hs.2]
  | cons c s =>
    have hd := dropDigits_length (scanSign s).2
    have hg := scanSign_length s
    simp only [scanExp] at hs
    split_ifs at hs with h1 h2
    · simp only [Option.some.injEq, Prod.mk.injEq] at hs
      rw [← hs.2]
      simp only [List.length_cons]
      omega
    · simp only [Option.some.injEq, Prod.mk.injEq] at hs
      rw [← hs.2]

theorem scanNumber_length (s x r : Bytes) (hs : scanNumber s = some (x, r)) :
    r.length < s.length := by
  unfold scanNumber at hs
  have hm := scanMinus_length s
  cases hi : scanInt (scanMinus s).2 with
  | none => simp [hi] at hs
  | some p =>
    rcases p with ⟨i, s2⟩
    rw [hi] at hs
    have h2 := scanInt_length _ i s2 hi
    simp only [] at hs
    cases hf : scanFrac s2 with
    | none => simp [hf] at hs
    | some p =>
      rcases p with ⟨f, s3⟩
      rw [hf] at hs
      have h3 := scanFrac_length _ f s3 hf
      simp only [] at hs
      cases he : scanExp s3 with
      | none => simp [he] at hs
      | some p =>
        rcases p with ⟨e, s4⟩
        rw [he] at hs
        have h4 := scanExp_length _ e s4 he
        simp only [Option.some.injEq, Prod.mk.injEq] at hs
        rw [← hs.2]
        omega

theorem parseElems_length (pv : Bytes → Option (JValue × Bytes))
    (hpv : ∀ s v r, pv s = some (v, r) → r.length < s.length) :
    ∀ (k : Nat) (s : Bytes) (vs : List JValue) (r : Bytes),
      parseElems pv k s = some (vs, r) → r.length < s.length
  | 0, s, vs, r, hs => by simp [parseElems] at hs
  | k + 1, s, vs, r, hs => by
    rw [parseElems_succ] at hs
    have hw0 := skipWs_length s
    cases hv : pv (skipWs s) with
    | none => simp [hv] at hs
    | some p =>
      rcases p with ⟨v, r1⟩
      rw [hv] at hs
      have h1 := hpv _ v r1 hv
      have hw1 := skipWs_length r1
      simp only [] at hs
      cases hw : skipWs r1 with
      | nil => simp [hw] at hs
      | cons c r2 =>
        rw [hw] at hs hw1
        simp only [List.length_cons] at hw1
        simp only [] at hs
        split_ifs at hs with h2 h3
        · cases hrec : parseElems pv k r2 with
          | none => simp [hrec] at hs
          | some q =>
            rcases q with ⟨vs2, r3⟩
            rw [hrec] at hs
            have := parseElems_length pv hpv k r2 vs2 r3 hrec
            simp only [Option.map_some', Option.some.injEq, Prod.mk.injEq] at hs
            rw [← hs.2]
            omega
        · simp only [Option.some.injEq, Prod.mk.injEq] at hs
          rw [← hs.2]
          omega

theorem parseMembers_length (pv : Bytes → Option (JValue × Bytes))
    (hpv : ∀ s v r, pv s = some (v, r) → r.length < s.length) :
    ∀ (k : Nat) (s : Bytes) (ms : List (Bytes × JValue)) (r : Bytes),
      parseMembers pv k s = some (ms, r) → r.length < s.length
  | 0, s, ms, r, hs => by simp [parseMembers] at hs
  | k + 1, s, ms, r, hs => by
    rw [parseMembers_succ] at hs
    have hl0 := skipWs_length s
    cases hw0 : skipWs s with
    | nil => simp [hw0] at hs
    | cons q r0 =>
      rw [hw0] at hs hl0
      simp only [List.length_cons] at hl0
      simp only [] at hs
      split_ifs at hs with hq
      cases hk : scanString .normal r0 with
      | none => simp [hk] at hs
      | some p =>
        rcases p with ⟨key, r1⟩
        rw [hk] at hs
        have hl1 := scanString_length r0 .normal key r1 hk
        have hl2 := skipWs_length r1
        simp only [] at hs
        cases hw1 : skipWs r1 with
        | nil => simp [hw1] at hs
        | cons col r2 =>
          rw [hw1] at hs hl2
          simp only [List.length_cons] at hl2
          have hl3 := skipWs_length r2
          simp only [] at hs
          split_ifs at hs with hcol
          cases hv : pv (skipWs r2) with
          | none => simp [hv] at hs
          | some p =>
            rcases p with ⟨v, r3⟩
            rw [hv] at hs
            have hl4 := hpv _ v r3 hv
            have hl5 := skipWs_length r3
            simp only [] at hs
            cases hw3 : skipWs r3 with
            | nil => simp [hw3] at hs
            | cons c r4 =>
              rw [hw3] at hs hl5
              simp only [List.length_cons] at hl5
              simp only [] at hs
              split_ifs at hs with h1 h2
              · cases hrec : parseMembers pv k r4 with
                | none => simp [hrec] at hs
                | some q2 =>
                  rcases q2 with ⟨ms2, r5⟩
                  rw [hrec] at hs
                  have := parseMembers_length pv hpv k r4 ms2 r5 hrec
                  simp only [Option.map_some', Option.some.injEq, Prod.mk.injEq] at hs
                  rw [← hs.2]
                  omega
              · simp only [Option.some.injEq, Prod.mk.injEq] at hs
                rw [← hs.2]
                omega

theorem parseValue_length :
    ∀ (n : Nat) (s : Bytes) (v : JValue) (r : Bytes),
      parseValue n s = some (v, r) → r.length < s.length
  | 0, s, v, r, hs => by simp [parseValue] at hs
  | n + 1, [], v, r, hs => by simp [parseValue] at hs
  | n + 1, c :: s, v, r, hs => by
    have ih := parseValue_length n
    rw [parseValue_succ] at hs
    simp only [List.length_cons]
    split_ifs at hs with h1 h2 h3 h4 h5 h6
    · cases hk : scanString .normal s with
      | none => simp [hk] at hs
      | some p =>
        rw [hk] at hs
        have := scanString_length s .normal p.1 p.2 hk
        simp only [Option.map_some', Option.some.injEq, Prod.mk.injEq] at hs
        rw [← hs.2]
        omega
    · have hl := skipWs_length s
      cases hw : skipWs s with
      | nil => simp [hw] at hs
      | cons c2 r2 =>
        rw [hw] at hs hl
        simp only [List.length_cons] at hl
        simp only [] at hs
        split_ifs at hs with hc
        · simp only [Option.some.injEq, Prod.mk.injEq] at hs
          rw [← hs.2]
          omega
        · cases he : parseElems (parseValue n) n s with
          | none => simp [he] at hs
          | some p =>
            rw [he] at hs
            have := parseElems_length _ ih n s p.1 p.2 he
            simp only [Option.map_some', Option.some.injEq, Prod.mk.injEq] at hs
            rw [← hs.2]
            omega
    · have hl := skipWs_length s
      cases hw : skipWs s with
      | nil => simp [hw] at hs
      | cons c2 r2 =>
        rw [hw] at hs hl
        simp only [List.length_cons] at hl
        simp only [] at hs
        split_ifs at hs with hc
        · simp only [Option.some.injEq, Prod.mk.injEq] at hs
          rw [← hs.2]
          omega
        · cases he : parseMembers (parseValue n) n s with
          | none => simp [he] at hs
          | some p =>
            rw [he] at hs
            have := parseMembers_length _ ih n s p.1 p.2 he
            simp only [Option.map_some', Option.some.injEq, Prod.mk.injEq] at hs
            rw [← hs.2]
            omega
    · cases he : expect (ascii "rue") s with
      | none => simp [he] at hs
      | some r2 =>
        rw [he] at hs
        have := expect_length _ s r2 he
        simp only [Option.map_some', Option.some.injEq, Prod.mk.injEq] at hs
        rw [← hs.2]
        omega
    · cases he : expect (ascii "alse") s with
      | none => simp [he] at hs
      | some r2 =>
        rw [he] at hs
        have := expect_length _ s r2 he
        simp only [Option.map_some', Option.some.injEq, Prod.mk.injEq] at hs
        rw [← hs.2]
        omega
    · cases he : expect (ascii "ull") s with
      | none => simp [he] at hs
      | some r2 =>
        rw [he] at hs
        have := expect_length _ s r2 he
        simp only [Option.map_some', Option.some.injEq, Prod.mk.injEq] at hs
        rw [← hs.2]
        omega
    · cases hk : scanNumber (c :: s) with
      | none => simp [hk] at hs
      | some p =>
        rw [hk] at hs
        have := scanNumber_length (c :: s) p.1 p.2 hk
        simp only [List.length_cons] at this
        simp only [Option.map_some', Option.some.injEq, Prod.mk.injEq] at hs
        rw [← hs.2]
        omega

theorem parseElems_fuel (pv pv2 : Bytes → Option (JValue × Bytes))
    (hlen : ∀ s v r, pv s = some (v, r) → r.length < s.length) :
    ∀ (k : Nat) (s : Bytes) (y : List JValue × Bytes),
      (∀ s2 x, s2.length ≤ s.length → pv s2 = some x → pv2 s2 = some x) →
      parseElems pv k s = some y → parseElems pv2 s.length s = some y
  | 0, s, y, _, hs => by simp [parseElems] at hs
  | k + 1, s, y, hpv, hs => by
    rw [parseElems_succ] at hs
    have hl0 := skipWs_length s
    cases hv : pv (skipWs s) with
    | none => simp [hv] at hs
    | some p =>
      rcases p with ⟨v, r1⟩
      rw [hv] at hs
      have hl1 := hlen _ v r1 hv
      have hl2 := skipWs_length r1
      obtain ⟨K, hK⟩ : ∃ K, s.length = K + 1 := ⟨s.length - 1, by omega⟩
      rw [hK, parseElems_succ, hpv _ _ hl0 hv]
      simp only [] at hs ⊢
      cases hw : skipWs r1 with
      | nil => simp [hw] at hs
      | cons c r2 =>
        rw [hw] at hs hl2
        simp only [List.length_cons] at hl2
        simp only [] at hs ⊢
        split_ifs at hs ⊢ with h1 h2
        · cases hrec : parseElems pv k r2 with
          | none => simp [hrec] at hs
          | some q =>
            rw [hrec] at hs
            have ih := parseElems_fuel pv pv2 hlen k r2 q
              (fun s2 x h2 => hpv s2 x (by omega)) hrec
            rw [parseElems_mono pv2 pv2 (fun _ _ h => h) _ K r2 q (by omega) ih]
            exact hs
        · exact hs

theorem parseMembers_fuel (pv pv2 : Bytes → Option (JValue × Bytes))
    (hlen : ∀ s v r, pv s = some (v, r) → r.length < s.length) :
    ∀ (k : Nat) (s : Bytes) (y : List (Bytes × JValue) × Bytes),
      (∀ s2 x, s2.length ≤ s.length → pv s2 = some x → pv2 s2 = some x) →
      parseMembers pv k s = some y → parseMembers pv2 s.length s = some y
  | 0, s, y, _, hs => by simp [parseMembers] at hs
  | k + 1, s, y, hpv, hs => by
    rw [parseMembers_succ] at hs
    have hl0 := skipWs_length s
    cases hw0 : skipWs s with
    | nil => simp [hw0] at hs
    | cons q r0 =>
      rw [hw0] at hs hl0
      simp only [List.length_cons] at hl0
      obtain ⟨K, hK⟩ : ∃ K, s.length = K + 1 := ⟨s.length - 1, by omega⟩
      rw [hK, parseMembers_succ, hw0]
      simp only [] at hs ⊢
      split_ifs at hs ⊢ with hq
      cases hk : scanString .normal r0 with
      | none => simp [hk] at hs
      | some p =>
        rcases p with ⟨key, r1⟩
        rw [hk] at hs
        have hl1 := scanString_length r0 .normal key r1 hk
        have hl2 := skipWs_length r1
        simp only [] at hs ⊢
        cases hw1 : skipWs r1 with
        | nil => simp [hw1] at hs
        | cons col r2 =>
          rw [hw1] at hs hl2
          simp only [List.length_cons] at hl2
          have hl3 := skipWs_length r2
          simp only [] at hs ⊢
          split_ifs at hs ⊢ with hcol
          cases hv : pv (skipWs r2) with
          | none => simp [hv] at hs
          | some p =>
            rcases p with ⟨v, r3⟩
            rw [hv] at hs
            rw [hpv _ _ (by omega) hv]
            have hl4 := hlen _ v r3 hv
            have hl5 := skipWs_length r3
            simp only [] at hs ⊢
            cases hw3 : skipWs r3 with
            | nil => simp [hw3] at hs
            | cons c r4 =>
              rw [hw3] at hs hl5
              simp only [List.length_cons] at hl5
              simp only [] at hs ⊢
              split_ifs at hs ⊢ with h1 h2
              · cases hrec : parseMembers pv k r4 with
                | none => simp [hrec] at hs
                | some q2 =>
                  rw [hrec] at hs
                  have ih := parseMembers_fuel pv pv2 hlen k r4 q2
                    (fun s2 x h2 => hpv s2 x (by omega)) hrec
                  rw [parseMembers_mono pv2 pv2 (fun _ _ h => h) _ K r4 q2 (by omega) ih]
                  exact hs
              · exact hs

theorem parseValue_fuel :
    ∀ (L : Nat) (s : Bytes), s.length ≤ L → ∀ (n : Nat) (x : JValue × Bytes),
      parseValue n s = some x → parseValue s.length s = some x
  | _, _, _, 0, x, hs => by simp [parseValue] at hs
  | _, [], _, n + 1, x, hs => by simp [parseValue] at hs
  | 0, c :: s, hL, n + 1, x, hs => by simp at hL
  | L + 1, c :: s, hL, n + 1, x, hs => by
    have hsL : s.length ≤ L := by simpa using hL
    have hsub : ∀ s2 x2, s2.length ≤ s.length → parseValue n s2 = some x2 →
        parseValue s.length s2 = some x2 := by
      intro s2 x2 h2 hp
      have := parseValue_fuel L s2 (by omega) n x2 hp
      exact parseValue_mono _ _ s2 x2 h2 this
    rw [List.length_cons, parseValue_succ]
    rw [parseValue_succ] at hs
    split_ifs at hs ⊢ with h1 h2 h3 h4 h5 h6
    · exact hs
    · cases hw : skipWs s with
      | nil => simp [hw] at hs
      | cons c2 r2 =>
        rw [hw] at hs
        simp only [] at hs ⊢
        split_ifs at hs ⊢ with hc
        · exact hs
        · cases he : parseElems (parseValue n) n s with
          | none => simp [he] at hs
          | some p =>
            rw [he] at hs
            rw [parseElems_fuel _ _ (parseValue_length n) n s p hsub he]
            exact hs
    · cases hw : skipWs s with
      | nil => simp [hw] at hs
      | cons c2 r2 =>
        rw [hw] at hs
        simp only [] at hs ⊢
        split_ifs at hs ⊢ with hc
        · exact hs
        · cases he : parseMembers (parseValue n) n s with
          | none => simp [he] at hs
          | some p =>
            rw [he] at hs
            rw [parseMembers_fuel _ _ (parseValue_length n) n s p hsub he]
            exact hs
    · exact hs
    · exact hs
    · exact hs
    · exact hs

/-- The fuel used by `parseJson` is enough: a text that parses with any fuel at
all parses with `parseJson`, to the same value. -/
theorem parseJson_iff (e : Bytes) (v : JValue) :
    parseJson e = some v ↔
      ∃ n r, parseValue n (skipWs e) = some (v, r) ∧ skipWs r = [] := by
  constructor
  · intro h
    rcases parseJson_some e v h with ⟨r, hp, hr⟩
    exact ⟨_, r, hp, hr⟩
  · rintro ⟨n, r, hp, hr⟩
    have h1 := parseValue_fuel _ _ (Nat.le_refl _) n _ hp
    have h2 := parseValue_mono _ (e.length + 1) _ _
      (Nat.le_succ_of_le (skipWs_length e)) h1
    unfold parseJson
    rw [h2]
    simp only []
    rw [hr]

/-! ### Parsing the output of the struct encoder -/

theorem scanString_plain (rest : Bytes) :
    ∀ k : Bytes, k.all plainByte = true →
      scanString .normal (k ++ 0x22 :: rest) = some (k, rest)
  | [], _ => by
    rw [List.nil_append, scanString_normal, if_pos rfl]
  | c :: k, h => by
    simp only [List.all_cons, Bool.and_eq_true] at h
    have hc := h.1
    simp only [plainByte, Bool.and_eq_true, bne_iff_ne, ne_eq, Bool.not_eq_true',
      decide_eq_false_iff_not] at hc
    rw [List.cons_append, scanString_normal, if_neg hc.1.1, if_neg hc.1.2, if_neg hc.2,
      scanString_plain rest k h.2]
    rfl

theorem renderMember_eq (kv : String × Bytes) :
    renderMember kv = 0x22 :: (ascii kv.1 ++ 0x22 :: 0x3A :: kv.2) := by
  have h1 : ascii "\"" = [0x22] := by decide
  have h2 : ascii "\":" = [0x22, 0x3A] := by decide
  unfold renderMember
  rw [h1, h2]
  simp [List.append_assoc]

theorem parseMembers_render (n : Nat) (t : Bytes) :
    ∀ (ms : List (String × Bytes)) (vals : List JValue) (k : Nat),
      List.Forall₂ (fun kv val => parseJson kv.2 = some val) ms vals → ms ≠ [] →
      (∀ kv ∈ ms, (ascii kv.1).all plainByte = true) →
      (∀ kv ∈ ms, kv.2.length + 1 ≤ n) → ms.length ≤ k →
      parseMembers (parseValue n) k
          (List.intercalate [0x2C] (ms.map renderMember) ++ 0x7D :: t)
        = some ((ms.map (fun kv => ascii kv.1)).zip vals, t)
  | [], _, _, _, hne, _, _, _ => absurd rfl hne
  | _ :: _, _, 0, _, _, _, _, hk => by simp at hk
  | kv :: rest, vs, k + 1, hall, _, hkeys, hn, hk => by
    cases hall with
    | cons hev hrest =>
      rename_i v vs2
      rcases parseJson_some kv.2 v hev with ⟨r, hp, hr⟩
      have hfuel : kv.2.length + 1 ≤ n := hn kv (by simp)
      have hp2 := parseValue_mono _ n _ _ hfuel hp
      have hplain : (ascii kv.1).all plainByte = true := hkeys kv (by simp)
      cases rest with
      | nil =>
        cases hrest
        have hd : startsDelim (0x7D :: t) = true := rfl
        have hin : List.intercalate [0x2C] ([kv].map renderMember) ++ 0x7D :: t
            = 0x22 :: (ascii kv.1 ++ 0x22 :: (0x3A :: (kv.2 ++ 0x7D :: t))) := by
          simp [List.intercalate, renderMember_eq, List.append_assoc]
        rw [hin, parseMembers_succ]
        have hs1 : ∀ x : Bytes, skipWs (0x22 :: x) = 0x22 :: x := fun _ => rfl
        have hs2 : ∀ x : Bytes, skipWs (0x3A :: x) = 0x3A :: x := fun _ => rfl
        rw [hs1]
        simp only [if_true]
        rw [scanString_plain _ _ hplain]
        simp only []
        rw [hs2]
        simp only [if_true]
        rw [skipWs_append _ hd kv.2, parseValue_append _ hd n _ v r hp2]
        simp only []
        rw [skipWs_append _ hd r, hr]
        simp
      | cons kv2 ms2 =>
        have hd : startsDelim
            (0x2C :: (List.intercalate [0x2C] ((kv2 :: ms2).map renderMember) ++ 0x7D :: t))
              = true := rfl
        have hin : List.intercalate [0x2C] ((kv :: kv2 :: ms2).map renderMember) ++ 0x7D :: t
            = 0x22 :: (ascii kv.1 ++ 0x22 :: (0x3A :: (kv.2 ++
                0x2C :: (List.intercalate [0x2C] ((kv2 :: ms2).map renderMember)
                  ++ 0x7D :: t)))) := by
          rw [List.map_cons, List.map_cons, intercalate_cons_cons, ← List.map_cons]
          simp [renderMember_eq kv, List.append_assoc]
        have ih := parseMembers_render n t (kv2 :: ms2) vs2 k hrest (by simp)
          (fun x hx => hkeys x (by simp [hx]))
          (fun x hx => hn x (by simp [hx])) (by simpa using hk)
        rw [hin, parseMembers_succ]
        have hs1 : ∀ x : Bytes, skipWs (0x22 :: x) = 0x22 :: x := fun _ => rfl
        have hs2 : ∀ x : Bytes, skipWs (0x3A :: x) = 0x3A :: x := fun _ => rfl
        rw [hs1]
        simp only [if_true]
        rw [scanString_plain _ _ hplain]
        simp only []
        rw [hs2]
        simp only [if_true]
        rw [skipWs_append _ hd kv.2, parseValue_append _ hd n _ v r hp2]
        simp only []
        rw [skipWs_append _ hd r, hr, List.nil_append]
        simp only [if_true]
        rw [ih]
        rfl

theorem length_le_sum_succ (x : String × Bytes) :
    ∀ ms : List (String × Bytes), x ∈ ms →
      x.2.length + 1 ≤ (ms.map (fun kv => kv.2.length + 1)).sum
  | [], h => by simp at h
  | y :: ms, h => by
    rcases List.mem_cons.mp h with rfl | h
    · simp
    · have := length_le_sum_succ x ms h
      simp only [List.map_cons, List.sum_cons]
      omega

theorem intercalate_split (e : Bytes) (rest : List Bytes) (z : Bytes) :
    ∃ tl, List.intercalate [0x2C] (e :: rest) ++ z = e ++ tl := by
  cases rest with
  | nil => exact ⟨z, by simp [List.intercalate]⟩
  | cons e2 es =>
    refine ⟨0x2C :: (List.intercalate [0x2C] (e2 :: es) ++ z), ?_⟩
    rw [intercalate_cons_cons]
    simp [List.append_assoc]

theorem parseJson_object (ms : List (String × Bytes)) (vals : List JValue)
    (hall : List.Forall₂ (fun kv val => parseJson kv.2 = some val) ms vals)
    (hkeys : ∀ kv ∈ ms, (ascii kv.1).all plainByte = true) :
    parseJson (renderObject ms)
      = some (JValue.object ((ms.map (fun kv => ascii kv.1)).zip vals)) := by
  cases ms with
  | nil =>
    cases hall
    rfl
  | cons kv rest =>
    have hne : kv :: rest ≠ [] := by simp
    have hl : ascii "\x7b" = [0x7B] := by decide
    have hc : ascii "," = [0x2C] := by decide
    have hr : ascii "\x7d" = [0x7D] := by decide
    have hform : renderObject (kv :: rest)
        = 0x7B :: (List.intercalate [0x2C] ((kv :: rest).map renderMember) ++ 0x7D :: []) := by
      unfold renderObject
      rw [hl, hc, hr]
      rfl
    have hfirst : ∃ x, List.intercalate [0x2C] ((kv :: rest).map renderMember) ++ 0x7D :: []
        = 0x22 :: x := by
      rw [List.map_cons]
      obtain ⟨tl, htl⟩ := intercalate_split (renderMember kv) (rest.map renderMember) [0x7D]
      rw [htl, renderMember_eq]
      exact ⟨_, rfl⟩
    obtain ⟨x, hx⟩ := hfirst
    have hmem := parseMembers_render
      ((kv :: rest).length + ((kv :: rest).map (fun kv => kv.2.length + 1)).sum) []
      (kv :: rest) vals
      ((kv :: rest).length + ((kv :: rest).map (fun kv => kv.2.length + 1)).sum)
      hall hne hkeys
      (fun y hy => Nat.le_trans (length_le_sum_succ y _ hy) (Nat.le_add_left _ _))
      (Nat.le_add_right _ _)
    rw [parseJson_iff]
    refine ⟨(kv :: rest).length + ((kv :: rest).map (fun kv => kv.2.length + 1)).sum + 1,
      [], ?_, rfl⟩
    rw [hform]
    have hws : ∀ y : Bytes, skipWs (0x7B :: y) = 0x7B :: y := fun _ => rfl
    rw [hws, parseValue_succ]
    have h1 : ¬ ((0x7B : UInt8) = 0x22) := by decide
    have h2 : ¬ ((0x7B : UInt8) = 0x5B) := by decide
    have h3 : ¬ ((0x22 : UInt8) = 0x7D) := by decide
    rw [if_neg h1, if_neg h2, if_pos rfl, hmem, hx]
    have hws2 : skipWs (0x22 :: x) = 0x22 :: x := rfl
    rw [hws2]
    simp only []
    rw [if_neg h3]
    rfl

theorem encodeMembers_values (lib : Formatters) :
    ∀ (fs : List Field) (ms : List (String × Bytes)), encodeMembers lib fs = .ok ms →
      ∀ kv ∈ ms, ∃ f ∈ emitted fs, kv.1 = f.name ∧ encodeValue lib f.value = .ok kv.2
  | [], ms, h => by
    simp only [encodeMembers, Except.ok.injEq] at h
    subst h
    simp
  | f :: fs, ms, h => by
    by_cases hskip : (f.omitEmpty && isEmptyValue f.value) = true
    · simp only [encodeMembers, hskip, if_true] at h
      rw [emitted_cons_skip f fs hskip]
      exact encodeMembers_values lib fs ms h
    · simp only [encodeMembers, hskip, if_false] at h
      cases hv : encodeValue lib f.value with
      | error err => simp [hv] at h
      | ok v =>
        cases hms : encodeMembers lib fs with
        | error err => simp [hv, hms] at h
        | ok ms2 =>
          rw [hv, hms] at h
          simp only [Bool.false_eq_true, if_false, Except.ok.injEq] at h
          subst h
          rw [emitted_cons_keep f fs hskip]
          intro kv hkv
          rcases List.mem_cons.mp hkv with rfl | hkv
          · exact ⟨f, by simp, rfl, hv⟩
          · rcases encodeMembers_values lib fs ms2 hms kv hkv with ⟨g, hg, h1, h2⟩
            exact ⟨g, by simp [hg], h1, h2⟩

theorem declaredKeys_plain : ∀ k ∈ declaredKeys, (ascii k).all plainByte = true := by
  decide

theorem jsonMarshal_parses (lib : Formatters) (m : MashStep)
    (hval : ∀ f ∈ emitted m.fields,
      ((encodeValue lib f.value).toOption.bind parseJson).isSome = true) :
    ∃ b members, jsonMarshal lib m = (b, none) ∧
      parseJson b = some (JValue.object members) ∧
      members.map Prod.fst = (objectKeys m).map ascii := by
  have hok : ∀ f ∈ emitted m.fields, ∃ v, encodeValue lib f.value = .ok v := by
    intro f hf
    have := hval f hf
    cases hv : encodeValue lib f.value with
    | error err => simp [hv, Except.toOption] at this
    | ok v => exact ⟨v, rfl⟩
  rcases (encodeMembers_ok_iff lib m.fields).mpr hok with ⟨ms, hms⟩
  have hkeysEq := encodeMembers_keys lib m.fields ms hms
  have hvalid : ∀ e ∈ ms.map Prod.snd, (parseJson e).isSome = true := by
    intro e he
    rcases List.mem_map.mp he with ⟨kv, hkv, rfl⟩
    rcases encodeMembers_values lib m.fields ms hms kv hkv with ⟨f, hf, _, hv⟩
    have := hval f hf
    rw [hv] at this
    simpa [Except.toOption] using this
  rcases parses_exist _ hvalid with ⟨vals, hvals⟩
  have hall : List.Forall₂ (fun kv val => parseJson kv.2 = some val) ms vals := by
    rw [List.forall₂_map_left_iff] at hvals
    exact hvals
  have hplain : ∀ kv ∈ ms, (ascii kv.1).all plainByte = true := by
    intro kv hkv
    apply declaredKeys_plain
    apply (objectKeys_sublist m).subset
    show kv.1 ∈ (emitted m.fields).map Field.name
    rw [← hkeysEq]
    exact List.mem_map_of_mem Prod.fst hkv
  refine ⟨renderObject ms, _, jsonMarshal_eq_members lib m ms hms,
    parseJson_object ms vals hall hplain, ?_⟩
  have hlen : (ms.map (fun kv => ascii kv.1)).length ≤ vals.length := by
    rw [List.length_map, hall.length_eq]
  rw [List.map_fst_zip _ _ hlen]
  show ms.map (fun kv => ascii kv.1) = (List.map Field.name (emitted m.fields)).map ascii
  rw [← hkeysEq, List.map_map]
  rfl

theorem declaredKeys_ascii_nodup : (declaredKeys.map ascii).Nodup := by decide

theorem omitted_in_parse (lib : Formatters) (m : MashStep)
    (hval : ∀ f ∈ emitted m.fields,
      ((encodeValue lib f.value).toOption.bind parseJson).isSome = true) :
    ∃ b members, jsonMarshal lib m = (b, none) ∧
      parseJson b = some (JValue.object members) ∧
      ∀ f ∈ m.fields, isEmptyValue f.value = true → ascii f.name ∉ members.map Prod.fst := by
  rcases jsonMarshal_parses lib m hval with ⟨b, members, hb, hp, hkeys⟩
  refine ⟨b, members, hb, hp, ?_⟩
  intro f hf he hmem
  rw [hkeys] at hmem
  rcases List.mem_map.mp hmem with ⟨k, hk, hkf⟩
  have hk2 : k ∈ declaredKeys := (objectKeys_sublist m).subset hk
  have hf2 : f.name ∈ declaredKeys := by
    rw [← fields_names m]
    exact List.mem_map_of_mem Field.name hf
  have heq : k = f.name := List.inj_on_of_nodup_map declaredKeys_ascii_nodup hk2 hf2 hkf
  rw [heq] at hk
  exact omitted_of_empty m f hf he hk

theorem sixtyFive_value :
    Float64.sixtyFive.signBit = false ∧ Float64.sixtyFive.mantExp = (65 * 2 ^ 46, -46) := by
  decide

theorem intercalate_length (c : UInt8) :
    ∀ encs : List Bytes, (List.intercalate [c] encs).length
      = (encs.map List.length).sum + (encs.length - 1)
  | [] => by simp [List.intercalate]
  | [e] => by simp [List.intercalate]
  | e :: e2 :: es => by
    have ih := intercalate_length c (e2 :: es)
    rw [intercalate_cons_cons]
    simp only [List.length_append, List.length_cons, List.length_nil, List.map_cons,
      List.sum_cons] at ih ⊢
    omega

/-! ### The buffer at the trim, and concatenated collections -/

theorem loop_shape {ε : Type} (jm : MashStep → Bytes × Option ε) :
    ∀ (steps : List MashStep) (b0 b : Bytes), MarshalJSON.loop jm steps b0 = .ok b →
      (∀ s ∈ steps, (jm s).2 = none) ∧
        b = b0 ++ commaTerminated (steps.map (fun s => (jm s).1))
  | [], b0, b, h => by
    simp only [MarshalJSON.loop, Except.ok.injEq] at h
    subst h
    simp [commaTerminated]
  | s :: rest, b0, b, h => by
    rcases hjm : jm s with ⟨bb, e⟩
    cases e with
    | some err => simp [MarshalJSON.loop, hjm] at h
    | none =>
      simp only [MarshalJSON.loop, hjm] at h
      rcases loop_shape jm rest _ b h with ⟨hrest, hb⟩
      constructor
      · intro x hx
        rcases List.mem_cons.mp hx with rfl | hx
        · rw [hjm]
        · exact hrest x hx
      · rw [hb]
        simp [commaTerminated, hjm, List.append_assoc]

theorem trim_buffer {ε : Type} (jm : MashStep → Bytes × Option ε)
    (steps : List MashStep) (b0 b : Bytes) (hne : steps ≠ [])
    (h : MarshalJSON.loop jm steps b0 = .ok b) :
    b = (b0 ++ List.intercalate (ascii ",") (steps.map (fun s => (jm s).1))) ++ [0x2C] := by
  have hmap : steps.map (fun s => (jm s).1) ≠ [] := by simpa using hne
  have hc : ascii "," = [0x2C] := by decide
  rw [(loop_shape jm steps b0 b h).2, commaTerminated_eq_intercalate _ hmap, hc,
    List.append_assoc]

theorem marshal_no_panic {ε : Type} (jm : MashStep → Bytes × Option ε) (a : MashSteps) :
    MashSteps.MarshalJSON jm a ≠ .panic := by
  unfold MashSteps.MarshalJSON
  by_cases hlen : a.Mashstep.length > 0
  · simp only [hlen, if_true]
    cases hloop : MarshalJSON.loop jm a.Mashstep ([] ++ ascii "[") with
    | error err => simp
    | ok b =>
      have hne : a.Mashstep ≠ [] := List.length_pos.mp hlen
      rw [trim_buffer jm a.Mashstep _ b hne hloop]
      simp only []
      rw [sliceTo_dropLast]
      simp
  · simp [hlen]

theorem intercalate_append (sep : Bytes) :
    ∀ (xs ys : List Bytes), xs ≠ [] → ys ≠ [] →
      List.intercalate sep (xs ++ ys)
        = List.intercalate sep xs ++ sep ++ List.intercalate sep ys
  | [], _, hx, _ => absurd rfl hx
  | _, [], _, hy => absurd rfl hy
  | [e], y :: ys, _, _ => by
    have h1 : List.intercalate sep [e] = e := by simp [List.intercalate]
    rw [h1]
    exact intercalate_cons_cons sep e y ys
  | e :: e2 :: es, y :: ys, _, hy => by
    have ih := intercalate_append sep (e2 :: es) (y :: ys) (by simp) hy
    rw [List.cons_append, List.cons_append, intercalate_cons_cons, ← List.cons_append, ih,
      intercalate_cons_cons]
    simp [List.append_assoc]

theorem marshal_length {ε : Type} (jm : MashStep → Bytes × Option ε)
    (steps : List MashStep) :
    (ascii "[" ++ List.intercalate (ascii ",")
        (steps.map (fun s => (jm s).1)) ++ ascii "]").length
      = 2 + (steps.map (fun s => (jm s).1.length)).sum + (steps.length - 1) := by
  have hl : ascii "[" = [0x5B] := by decide
  have hc : ascii "," = [0x2C] := by decide
  have hr : ascii "]" = [0x5D] := by decide
  rw [hl, hc, hr]
  simp only [List.length_append, List.length_cons, List.length_nil, intercalate_length,
    List.map_map, List.length_map]
  have : (List.length ∘ fun s => (jm s).1) = fun s => (jm s).1.length := rfl
  rw [this]
  omega

/-! ### Optional fields that are present -/

theorem emitted_mem (fs : List Field) (f : Field) (hf : f ∈ fs)
    (hkeep : (f.omitEmpty && isEmptyValue f.value) = false) : f ∈ emitted fs := by
  unfold emitted
  rw [List.mem_filter]
  exact ⟨hf, by rw [hkeep]; rfl⟩

theorem encodeMembers_mem (lib : Formatters) :
    ∀ (fs : List Field) (ms : List (String × Bytes)), encodeMembers lib fs = .ok ms →
      ∀ f ∈ emitted fs, ∃ v, encodeValue lib f.value = .ok v ∧ (f.name, v) ∈ ms
  | [], ms, _ => by simp [emitted]
  | g :: fs, ms, h => by
    by_cases hskip : (g.omitEmpty && isEmptyValue g.value) = true
    · simp only [encodeMembers, hskip, if_true] at h
      rw [emitted_cons_skip g fs hskip]
      exact encodeMembers_mem lib fs ms h
    · simp only [encodeMembers, hskip, if_false] at h
      cases hv : encodeValue lib g.value with
      | error err => simp [hv] at h
      | ok v =>
        cases hms : encodeMembers lib fs with
        | error err => simp [hv, hms] at h
        | ok ms2 =>
          rw [hv, hms] at h
          simp only [Bool.false_eq_true, if_false, Except.ok.injEq] at h
          subst h
          rw [emitted_cons_keep g fs hskip]
          intro f hf
          rcases List.mem_cons.mp hf with rfl | hf
          · exact ⟨v, hv, by simp⟩
          · rcases encodeMembers_mem lib fs ms2 hms f hf with ⟨w, hw, hmem⟩
            exact ⟨w, hw, by simp [hmem]⟩

theorem jsonMarshal_members (lib : Formatters) (m : MashStep) (b : Bytes)
    (h : jsonMarshal lib m = (b, none)) :
    ∃ ms, encodeMembers lib m.fields = .ok ms ∧ b = renderObject ms := by
  have hok : (jsonMarshal lib m).2 = none := by rw [h]
  rcases (jsonMarshal_ok_iff_members lib m).mp hok with ⟨ms, hms⟩
  refine ⟨ms, hms, ?_⟩
  rw [jsonMarshal_eq_members lib m ms hms] at h
  exact (Prod.mk.inj h).1.symm

theorem present_member (lib : Formatters) (m : MashStep) (b : Bytes) (f : Field)
    (hf : f ∈ m.fields) (hkeep : (f.omitEmpty && isEmptyValue f.value) = false)
    (h : jsonMarshal lib m = (b, none)) :
    ∃ ms v, b = renderObject ms ∧ encodeValue lib f.value = .ok v ∧ (f.name, v) ∈ ms := by
  rcases jsonMarshal_members lib m b h with ⟨ms, hms, hb⟩
  rcases encodeMembers_mem lib m.fields ms hms f (emitted_mem _ f hf hkeep) with ⟨v, hv, hmem⟩
  exact ⟨ms, v, hb, hv, hmem⟩

theorem present_key (m : MashStep) (f : Field) (hf : f ∈ m.fields)
    (hkeep : (f.omitEmpty && isEmptyValue f.value) = false) : f.name ∈ objectKeys m :=
  List.mem_map_of_mem Field.name (emitted_mem _ f hf hkeep)

theorem encodeMembers_cons (lib : Formatters) (g : Field) (fs : List Field) :
    encodeMembers lib (g :: fs) =
      if (g.omitEmpty && isEmptyValue g.value) = true then encodeMembers lib fs
      else
        match encodeValue lib g.value with
        | .error err => .error err
        | .ok v =>
          match encodeMembers lib fs with
          | .error err => .error err
          | .ok ms => .ok ((g.name, v) :: ms) := by
  simp only [encodeMembers]

theorem encodeMembers_append (lib : Formatters) :
    ∀ (l1 l2 : List Field), encodeMembers lib (l1 ++ l2) =
      match encodeMembers lib l1 with
      | .error err => .error err
      | .ok a =>
        match encodeMembers lib l2 with
        | .error err => .error err
        | .ok b => .ok (a ++ b)
  | [], l2 => by
    rw [List.nil_append]
    cases encodeMembers lib l2 <;> rfl
  | g :: l1, l2 => by
    have ih := encodeMembers_append lib l1 l2
    rw [List.cons_append, encodeMembers_cons, encodeMembers_cons]
    by_cases hskip : (g.omitEmpty && isEmptyValue g.value) = true
    · rw [if_pos hskip, if_pos hskip]
      exact ih
    · rw [if_neg hskip, if_neg hskip, ih]
      cases hv : encodeValue lib g.value with
      | error err => rfl
      | ok v =>
        cases h1 : encodeMembers lib l1 with
        | error err => rfl
        | ok a =>
          cases h2 : encodeMembers lib l2 with
          | error err => rfl
          | ok b => rfl

theorem renderObject_length (ms : List (String × Bytes)) :
    (renderObject ms).length
      = 2 + (ms.map (fun kv => (renderMember kv).length)).sum + (ms.length - 1) := by
  have hl : ascii "\x7b" = [0x7B] := by decide
  have hc : ascii "," = [0x2C] := by decide
  have hr : ascii "\x7d" = [0x7D] := by decide
  unfold renderObject
  rw [hl, hc, hr]
  simp only [List.length_append, List.length_cons, List.length_nil, intercalate_length,
    List.map_map, List.length_map]
  have : (List.length ∘ renderMember) = fun kv => (renderMember kv).length := rfl
  rw [this]
  omega

theorem renderMember_length_pos (kv : String × Bytes) : 0 < (renderMember kv).length := by
  rw [renderMember_eq]
  simp

theorem present_absent_differ (lib : Formatters) (pre post : List Field) (f1 f0 : Field)
    (h1 : (f1.omitEmpty && isEmptyValue f1.value) = false)
    (h0 : (f0.omitEmpty && isEmptyValue f0.value) = true)
    (ms1 ms0 : List (String × Bytes))
    (e1 : encodeMembers lib (pre ++ f1 :: post) = .ok ms1)
    (e0 : encodeMembers lib (pre ++ f0 :: post) = .ok ms0) :
    renderObject ms1 ≠ renderObject ms0 := by
  rw [encodeMembers_append] at e1 e0
  cases ha : encodeMembers lib pre with
  | error err => simp [ha] at e1
  | ok a =>
    rw [ha, encodeMembers_cons] at e1 e0
    rw [if_neg (by rw [h1]; decide)] at e1
    rw [if_pos h0] at e0
    simp only [] at e1 e0
    cases hv : encodeValue lib f1.value with
    | error err => simp [hv] at e1
    | ok v =>
      cases hb : encodeMembers lib post with
      | error err => simp [hb] at e0
      | ok b =>
        rw [hv, hb] at e1
        rw [hb] at e0
        simp only [Except.ok.injEq] at e1 e0
        subst e1
        subst e0
        intro heq
        have hlen := congrArg List.length heq
        rw [renderObject_length, renderObject_length] at hlen
        have hpos := renderMember_length_pos (f1.name, v)
        simp only [List.map_append, List.map_cons, List.sum_append, List.sum_cons,
          List.length_append, List.length_cons] at hlen
        omega

theorem infuse_differ (lib : Formatters) (m : MashStep) (v : Float64) (b1 b0 : Bytes)
    (h1 : jsonMarshal lib { m with InfuseAmount := some v } = (b1, none))
    (h0 : jsonMarshal lib { m with InfuseAmount := none } = (b0, none)) : b1 ≠ b0 := by
  rcases jsonMarshal_members lib _ b1 h1 with ⟨ms1, e1, rfl⟩
  rcases jsonMarshal_members lib _ b0 h0 with ⟨ms0, e0, rfl⟩
  exact present_absent_differ lib
    [⟨"name", true, .plain (.string m.Name)⟩, ⟨"version", true, .plain (.int m.Version)⟩,
      ⟨"type", true, .plain (.string m.Type_)⟩]
    _ ⟨"infuse_amount", true, .pointer (some (.float v))⟩
    ⟨"infuse_amount", true, .pointer none⟩ rfl rfl ms1 ms0 e1 e0

theorem ramp_differ (lib : Formatters) (m : MashStep) (v : Int) (b1 b0 : Bytes)
    (h1 : jsonMarshal lib { m with RampTime := some v } = (b1, none))
    (h0 : jsonMarshal lib { m with RampTime := none } = (b0, none)) : b1 ≠ b0 := by
  rcases jsonMarshal_members lib _ b1 h1 with ⟨ms1, e1, rfl⟩
  rcases jsonMarshal_members lib _ b0 h0 with ⟨ms0, e0, rfl⟩
  exact present_absent_differ lib
    [⟨"name", true, .plain (.string m.Name)⟩, ⟨"version", true, .plain (.int m.Version)⟩,
      ⟨"type", true, .plain (.string m.Type_)⟩,
      ⟨"infuse_amount", true, .pointer (m.InfuseAmount.map Scalar.float)⟩,
      ⟨"step_temp", true, .plain (.float m.StepTemp)⟩,
      ⟨"step_time", true, .plain (.int m.StepTime)⟩]
    _ ⟨"ramp_time", true, .pointer (some (.int v))⟩
    ⟨"ramp_time", true, .pointer none⟩ rfl rfl ms1 ms0 e1 e0

theorem end_differ (lib : Formatters) (m : MashStep) (v : Float64) (b1 b0 : Bytes)
    (h1 : jsonMarshal lib { m with EndTemp := some v } = (b1, none))
    (h0 : jsonMarshal lib { m with EndTemp := none } = (b0, none)) : b1 ≠ b0 := by
  rcases jsonMarshal_members lib _ b1 h1 with ⟨ms1, e1, rfl⟩
  rcases jsonMarshal_members lib _ b0 h0 with ⟨ms0, e0, rfl⟩
  exact present_absent_differ lib
    [⟨"name", true, .plain (.string m.Name)⟩, ⟨"version", true, .plain (.int m.Version)⟩,
      ⟨"type", true, .plain (.string m.Type_)⟩,
      ⟨"infuse_amount", true, .pointer (m.InfuseAmount.map Scalar.float)⟩,
      ⟨"step_temp", true, .plain (.float m.StepTemp)⟩,
      ⟨"step_time", true, .plain (.int m.StepTime)⟩,
      ⟨"ramp_time", true, .pointer (m.RampTime.map Scalar.int)⟩]
    _ ⟨"end_temp", true, .pointer (some (.float v))⟩
    ⟨"end_temp", true, .pointer none⟩ rfl rfl ms1 ms0 e1 e0

theorem infuse_key_iff (m : MashStep) :
    "infuse_amount" ∈ objectKeys m ↔ m.InfuseAmount ≠ none := by
  constructor
  · intro hmem hnone
    exact omitted_of_empty m ⟨"infuse_amount", true, .pointer (m.InfuseAmount.map Scalar.float)⟩
      (by simp [MashStep.fields]) (by simp [isEmptyValue, hnone]) hmem
  · intro hne
    obtain ⟨v, hv⟩ := Option.ne_none_iff_exists'.mp hne
    exact present_key m ⟨"infuse_amount", true, .pointer (m.InfuseAmount.map Scalar.float)⟩
      (by simp [MashStep.fields]) (by simp [isEmptyValue, hv])

theorem ramp_key_iff (m : MashStep) :
    "ramp_time" ∈ objectKeys m ↔ m.RampTime ≠ none := by
  constructor
  · intro hmem hnone
    exact omitted_of_empty m ⟨"ramp_time", true, .pointer (m.RampTime.map Scalar.int)⟩
      (by simp [MashStep.fields]) (by simp [isEmptyValue, hnone]) hmem
  · intro hne
    obtain ⟨v, hv⟩ := Option.ne_none_iff_exists'.mp hne
    exact present_key m ⟨"ramp_time", true, .pointer (m.RampTime.map Scalar.int)⟩
      (by simp [MashStep.fields]) (by simp [isEmptyValue, hv])

theorem end_key_iff (m : MashStep) :
    "end_temp" ∈ objectKeys m ↔ m.EndTemp ≠ none := by
  constructor
  · intro hmem hnone
    exact omitted_of_empty m ⟨"end_temp", true, .pointer (m.EndTemp.map Scalar.float)⟩
      (by simp [MashStep.fields]) (by simp [isEmptyValue, hnone]) hmem
  · intro hne
    obtain ⟨v, hv⟩ := Option.ne_none_iff_exists'.mp hne
    exact present_key m ⟨"end_temp", true, .pointer (m.EndTemp.map Scalar.float)⟩
      (by simp [MashStep.fields]) (by simp [isEmptyValue, hv])

theorem zero_isFinite : (Float64.zero.isInf || Float64.zero.isNaN) = false := by decide

theorem infuse_zero_member (lib : Formatters) (m : MashStep) (b : Bytes)
    (hz : m.InfuseAmount = some Float64.zero) (h : jsonMarshal lib m = (b, none)) :
    ∃ ms, b = renderObject ms ∧ ("infuse_amount", lib.float Float64.zero) ∈ ms := by
  rcases present_member lib m b
    ⟨"infuse_amount", true, .pointer (m.InfuseAmount.map Scalar.float)⟩
    (by simp [MashStep.fields]) (by simp [isEmptyValue, hz]) h with ⟨ms, v, hb, hv, hmem⟩
  refine ⟨ms, hb, ?_⟩
  simp only [hz, Option.map_some', encodeValue, encodeScalar, floatEncoder, zero_isFinite,
    Bool.false_eq_true, if_false, Except.ok.injEq] at hv
  rw [hv]
  exact hmem

theorem ramp_zero_member (lib : Formatters) (m : MashStep) (b : Bytes)
    (hz : m.RampTime = some 0) (h : jsonMarshal lib m = (b, none)) :
    ∃ ms, b = renderObject ms ∧ ("ramp_time", ascii "0") ∈ ms := by
  rcases present_member lib m b
    ⟨"ramp_time", true, .pointer (m.RampTime.map Scalar.int)⟩
    (by simp [MashStep.fields]) (by simp [isEmptyValue, hz]) h with ⟨ms, v, hb, hv, hmem⟩
  refine ⟨ms, hb, ?_⟩
  have h0 : appendInt 0 = ascii "0" := by decide
  simp only [hz, Option.map_some', encodeValue, encodeScalar, h0, Except.ok.injEq] at hv
  rw [hv]
  exact hmem

theorem end_zero_member (lib : Formatters) (m : MashStep) (b : Bytes)
    (hz : m.EndTemp = some Float64.zero) (h : jsonMarshal lib m = (b, none)) :
    ∃ ms, b = renderObject ms ∧ ("end_temp", lib.float Float64.zero) ∈ ms := by
  rcases present_member lib m b
    ⟨"end_temp", true, .pointer (m.EndTemp.map Scalar.float)⟩
    (by simp [MashStep.fields]) (by simp [isEmptyValue, hz]) h with ⟨ms, v, hb, hv, hmem⟩
  refine ⟨ms, hb, ?_⟩
  simp only [hz, Option.map_some', encodeValue, encodeScalar, floatEncoder, zero_isFinite,
    Bool.false_eq_true, if_false, Except.ok.injEq] at hv
  rw [hv]
  exact hmem

theorem zero_fields_skipped :
    Float64.zero.isZero = true ∧ Float64.zero.isInf = false ∧ Float64.zero.isNaN = false := by
  decide

theorem infuseZero_members (lib : Formatters) :
    encodeMembers lib stepInfuseZero.fields
      = .ok [("infuse_amount", lib.float Float64.zero)] := by
  simp [encodeMembers, stepInfuseZero, MashStep.zero, MashStep.fields, isEmptyValue,
    encodeValue, encodeScalar, floatEncoder, zero_fields_skipped.1, zero_isFinite]

theorem rampZero_members (lib : Formatters) :
    encodeMembers lib stepRampZero.fields = .ok [("ramp_time", ascii "0")] := by
  have h0 : appendInt 0 = ascii "0" := by decide
  simp [encodeMembers, stepRampZero, MashStep.zero, MashStep.fields, isEmptyValue,
    encodeValue, encodeScalar, zero_fields_skipped.1, h0]

theorem endZero_members (lib : Formatters) :
    encodeMembers lib stepEndZero.fields = .ok [("end_temp", lib.float Float64.zero)] := by
  simp [encodeMembers, stepEndZero, MashStep.zero, MashStep.fields, isEmptyValue,
    encodeValue, encodeScalar, floatEncoder, zero_fields_skipped.1, zero_isFinite]

theorem exampleFormat_zero : exampleFormat.float Float64.zero = ascii "0" := by
  have hme : Float64.zero.mantExp = (0, -1074) := by decide
  have hs : Float64.zero.signBit = false := by decide
  have hd : (Nat.toDigits 10 0).map (fun c => UInt8.ofNat c.toNat) = ascii "0" := by decide
  simp only [exampleFormat, hme, hs, Nat.zero_div, Nat.zero_mul, ite_self, Bool.false_eq_true,
    if_false, List.nil_append, hd]

theorem absent_no_member (lib : Formatters) (m : MashStep) (f : Field) (hf : f ∈ m.fields)
    (he : isEmptyValue f.value = true) (b : Bytes) (h : jsonMarshal lib m = (b, none)) :
    ∃ ms, b = renderObject ms ∧ ms.map Prod.fst = objectKeys m ∧
      f.name ∉ ms.map Prod.fst := by
  rcases jsonMarshal_object lib m b h with ⟨ms, hkeys, hb⟩
  refine ⟨ms, hb, hkeys, ?_⟩
  rw [hkeys]
  exact omitted_of_empty m f hf he

theorem absent_no_parsed_member (lib : Formatters) (m : MashStep) (f : Field)
    (hf : f ∈ m.fields) (he : isEmptyValue f.value = true)
    (hval : ∀ g ∈ emitted m.fields,
      ((encodeValue lib g.value).toOption.bind parseJson).isSome = true) :
    ∃ b members, jsonMarshal lib m = (b, none) ∧
      parseJson b = some (JValue.object members) ∧
      ascii f.name ∉ members.map Prod.fst := by
  rcases omitted_in_parse lib m hval with ⟨b, members, hb, hp, hno⟩
  exact ⟨b, members, hb, hp, hno f hf he⟩

theorem zero_members (lib : Formatters) : encodeMembers lib MashStep.zero.fields = .ok [] := by
  simp [encodeMembers, MashStep.zero, MashStep.fields, isEmptyValue, zero_fields_skipped.1]

/-! ### Claims about the collection encoder -/

/-- C1: for a collection of N ≥ 2 records whose JSON encodings all succeed,
`MarshalJSON` returns a nil error and exactly the byte `[`, the N encodings in
collection order joined by single commas, and the byte `]`.  The output is as
long as the two brackets, the N encodings and N - 1 separators together. -/
theorem C1_marshal_many {ε : Type} (jm : MashStep → Bytes × Option ε)
    (steps : List MashStep) (hN : 2 ≤ steps.length)
    (hok : ∀ s ∈ steps, (jm s).2 = none) :
    MashSteps.MarshalJSON jm ⟨steps⟩
      = .ret (some (ascii "[" ++ List.intercalate (ascii ",")
          (steps.map (fun s => (jm s).1)) ++ ascii "]")) none ∧
    (ascii "[" ++ List.intercalate (ascii ",")
        (steps.map (fun s => (jm s).1)) ++ ascii "]").length
      = 2 + (steps.map (fun s => (jm s).1.length)).sum + (steps.length - 1) := by
  constructor
  · apply marshal_nonempty jm steps _ hok
    intro h
    rw [h] at hN
    simp at hN
  · have hl : ascii "[" = [0x5B] := by decide
    have hc : ascii "," = [0x2C] := by decide
    have hr : ascii "]" = [0x5D] := by decide
    rw [hl, hc, hr]
    simp only [List.length_append, List.length_cons, List.length_nil, intercalate_length,
      List.map_map, List.length_map]
    have : (List.length ∘ fun s => (jm s).1) = fun s => (jm s).1.length := rfl
    rw [this]
    omega

/-- C1 at the collection of `stepA` and `stepB`. -/
theorem C1_marshal_many_witness :
    2 ≤ [stepA, stepB].length ∧
    (∀ s ∈ [stepA, stepB], (jsonMarshal exampleFormat s).2 = none) ∧
    MashSteps.MarshalJSON (jsonMarshal exampleFormat) ⟨[stepA, stepB]⟩
      = .ret (some (ascii "[" ++ List.intercalate (ascii ",")
          ([stepA, stepB].map (fun s => (jsonMarshal exampleFormat s).1)) ++ ascii "]")) none :=
  ⟨by decide, by decide,
    (C1_marshal_many (jsonMarshal exampleFormat) [stepA, stepB] (by decide) (by decide)).1⟩

/-- C2: on a collection with zero records `MarshalJSON` returns a nil error and
exactly the two bytes `[` and `]`; no comma is in the output. -/
theorem C2_marshal_empty {ε : Type} (jm : MashStep → Bytes × Option ε) :
    MashSteps.MarshalJSON jm ⟨[]⟩ = .ret (some [0x5B, 0x5D]) none ∧
    ([0x5B, 0x5D] : Bytes) = ascii "[]" ∧
    ([0x5B, 0x5D] : Bytes).length = 2 ∧
    (0x2C : UInt8) ∉ ([0x5B, 0x5D] : Bytes) := by
  refine ⟨?_, by decide, by decide, by decide⟩
  simp [MashSteps.MarshalJSON]
  decide

/-- C3 as stated fails: the collection holding the single record `stepA` (version 1,
step time 30) encodes to `[{"version":1,"step_time":30}]`, which contains a comma. -/
theorem C3_single_has_comma :
    jsonMarshal exampleFormat stepA = (ascii "\x7b\"version\":1,\"step_time\":30\x7d", none) ∧
    MashSteps.MarshalJSON (jsonMarshal exampleFormat) ⟨[stepA]⟩
      = .ret (some (ascii "[\x7b\"version\":1,\"step_time\":30\x7d]")) none ∧
    (0x2C : UInt8) ∈ ascii "[\x7b\"version\":1,\"step_time\":30\x7d]" := by
  decide

/-- C3, amended: for a collection holding exactly one record whose encoding
succeeds, `MarshalJSON` yields `[`, that record's JSON object, `]`, and adds no
comma: the output has as many comma bytes as the record's own encoding, so it is
free of commas whenever that encoding is. -/
theorem C3_marshal_single {ε : Type} (jm : MashStep → Bytes × Option ε) (s : MashStep)
    (hok : (jm s).2 = none) :
    MashSteps.MarshalJSON jm ⟨[s]⟩ = .ret (some (ascii "[" ++ (jm s).1 ++ ascii "]")) none ∧
    (ascii "[" ++ (jm s).1 ++ ascii "]").count 0x2C = ((jm s).1).count 0x2C ∧
    ((0x2C : UInt8) ∉ (jm s).1 → (0x2C : UInt8) ∉ ascii "[" ++ (jm s).1 ++ ascii "]") := by
  have hl : ascii "[" = [0x5B] := by decide
  have hr : ascii "]" = [0x5D] := by decide
  refine ⟨?_, ?_, ?_⟩
  · have h := marshal_nonempty jm [s] (by simp) (by simpa using hok)
    simpa [List.intercalate] using h
  · rw [hl, hr]
    simp [List.count_append, List.count_cons]
  · intro h
    rw [hl, hr]
    simp [h]

/-- The amended C3 at the collection holding `stepB` alone. -/
theorem C3_marshal_single_witness :
    (jsonMarshal exampleFormat stepB).2 = none ∧
    MashSteps.MarshalJSON (jsonMarshal exampleFormat) ⟨[stepB]⟩
      = .ret (some (ascii "[" ++ (jsonMarshal exampleFormat stepB).1 ++ ascii "]")) none :=
  ⟨by decide, (C3_marshal_single (jsonMarshal exampleFormat) stepB (by decide)).1⟩

/-- C4: when the encoding of at least one record fails, `MarshalJSON` returns the
error of the first failing record in collection order, and nil bytes instead of
any part of the array built so far. -/
theorem C4_marshal_fails_whole {ε : Type} (jm : MashStep → Bytes × Option ε)
    (steps : List MashStep) (hfail : ∃ s ∈ steps, (jm s).2 ≠ none) :
    ∃ pre s post err, steps = pre ++ s :: post ∧ (∀ x ∈ pre, (jm x).2 = none) ∧
      (jm s).2 = some err ∧
      MashSteps.MarshalJSON jm ⟨steps⟩ = .ret none (some err) := by
  rcases first_failure jm steps hfail with ⟨pre, s, post, err, heq, hpre, hs⟩
  refine ⟨pre, s, post, err, heq, hpre, hs, ?_⟩
  rw [heq]
  exact marshal_error jm pre s post err hpre hs

/-- C4 at a collection whose second record has a NaN step temperature. -/
theorem C4_marshal_fails_whole_witness :
    (∃ s ∈ [stepA, stepNaN, stepB], (jsonMarshal exampleFormat s).2 ≠ none) ∧
    ∃ pre s post err, [stepA, stepNaN, stepB] = pre ++ s :: post ∧
      (∀ x ∈ pre, (jsonMarshal exampleFormat x).2 = none) ∧
      (jsonMarshal exampleFormat s).2 = some err ∧
      MashSteps.MarshalJSON (jsonMarshal exampleFormat) ⟨[stepA, stepNaN, stepB]⟩
        = .ret none (some err) :=
  ⟨⟨stepNaN, by decide, by decide⟩,
    C4_marshal_fails_whole (jsonMarshal exampleFormat) [stepA, stepNaN, stepB]
      ⟨stepNaN, by decide, by decide⟩⟩

/-- C6: for every collection and every byte sequence, `UnmarshalJSON` returns a
nil error and leaves the collection as it was. -/
theorem C6_unmarshal_noop {ε : Type} (a : MashSteps) (b : Bytes) :
    (a.UnmarshalJSON b : MashSteps × Option ε) = (a, none) := rfl

/-- C9: when every record encodes without error to a valid JSON text, the output
of `MarshalJSON` is a valid JSON text that parses to an array with as many
elements as the collection has records, the i-th element being the value of the
i-th record's encoding. -/
theorem C9_output_valid_array {ε : Type} (jm : MashStep → Bytes × Option ε)
    (steps : List MashStep)
    (hok : ∀ s ∈ steps, (jm s).2 = none ∧ (parseJson (jm s).1).isSome = true) :
    ∃ out vs, MashSteps.MarshalJSON jm ⟨steps⟩ = .ret (some out) none ∧
      parseJson out = some (JValue.array vs) ∧
      vs.length = steps.length ∧
      steps.map (fun s => parseJson (jm s).1) = vs.map some := by
  cases steps with
  | nil => exact ⟨ascii "[]", [], marshal_empty jm, rfl, rfl, rfl⟩
  | cons s rest =>
    have hne : s :: rest ≠ [] := by simp
    have hm := marshal_nonempty jm (s :: rest) hne (fun x hx => (hok x hx).1)
    have hvalid : ∀ e ∈ (s :: rest).map (fun x => (jm x).1), (parseJson e).isSome = true := by
      intro e he
      rcases List.mem_map.mp he with ⟨x, hx, rfl⟩
      exact (hok x hx).2
    rcases parses_exist _ hvalid with ⟨vs, hvs⟩
    have hmap := forall2_map_some _ _ hvs
    rw [List.map_map] at hmap
    have hl : ascii "[" = [0x5B] := by decide
    have hc : ascii "," = [0x2C] := by decide
    have hr : ascii "]" = [0x5D] := by decide
    refine ⟨_, vs, hm, ?_, ?_, hmap⟩
    · rw [hl, hc, hr]
      have hp := parseJson_array _ vs hvs (by simp)
      simpa using hp
    · have := congrArg List.length hmap
      simpa using this.symm

/-- C9 at the collection of `stepA` and `stepB`. -/
theorem C9_output_valid_array_witness :
    (∀ s ∈ [stepA, stepB], (jsonMarshal exampleFormat s).2 = none ∧
      (parseJson (jsonMarshal exampleFormat s).1).isSome = true) ∧
    ∃ out vs, MashSteps.MarshalJSON (jsonMarshal exampleFormat) ⟨[stepA, stepB]⟩
        = .ret (some out) none ∧
      parseJson out = some (JValue.array vs) ∧
      vs.length = [stepA, stepB].length ∧
      [stepA, stepB].map (fun s => parseJson (jsonMarshal exampleFormat s).1) = vs.map some :=
  ⟨by decide, C9_output_valid_array (jsonMarshal exampleFormat) [stepA, stepB] (by decide)⟩

/-! ### Claims about the record encoder -/

/-- C5 as stated fails: the record whose step temperature is NaN does not encode;
`json.Marshal` returns an unsupported-value error, and so does `MarshalJSON` on
the collection holding that record. -/
theorem C5_nan_fails :
    Float64.nan.isNaN = true ∧
    jsonMarshal exampleFormat stepNaN = ([], some (.unsupportedValue Float64.nan)) ∧
    MashSteps.MarshalJSON (jsonMarshal exampleFormat) ⟨[stepNaN]⟩
      = .ret none (some (.unsupportedValue Float64.nan)) := by
  decide

/-- C5, amended: encoding a record succeeds exactly when its floats are finite
(`step_temp`, and `infuse_amount` and `end_temp` when present, are neither NaN nor
an infinity); on a collection of such records `MarshalJSON` returns no error. -/
theorem C5_marshal_succeeds (lib : Formatters) :
    (∀ m : MashStep, (jsonMarshal lib m).2 = none ↔ m.finiteFloats = true) ∧
    (∀ steps : List MashStep, (∀ s ∈ steps, s.finiteFloats = true) →
      ∃ out, MashSteps.MarshalJSON (jsonMarshal lib) ⟨steps⟩ = .ret (some out) none) := by
  refine ⟨jsonMarshal_ok_iff lib, ?_⟩
  intro steps hfin
  cases steps with
  | nil => exact ⟨_, marshal_empty _⟩
  | cons s rest =>
    refine ⟨_, marshal_nonempty (jsonMarshal lib) (s :: rest) (by simp) ?_⟩
    intro x hx
    exact (jsonMarshal_ok_iff lib x).mpr (hfin x hx)

/-- The amended C5 at the collection of `stepA` and `stepB`. -/
theorem C5_marshal_succeeds_witness :
    (∀ s ∈ [stepA, stepB], s.finiteFloats = true) ∧
    ∃ out, MashSteps.MarshalJSON (jsonMarshal exampleFormat) ⟨[stepA, stepB]⟩
      = .ret (some out) none :=
  ⟨by decide, (C5_marshal_succeeds exampleFormat).2 [stepA, stepB] (by decide)⟩

/-- C7: a field holding its empty value (empty string, zero number, absent
optional) has no key in the record's JSON object, for each of the 14 fields and
so also for `step_temp` and `step_time`; the all-empty record encodes to `{}`, and
the record whose only set field is `step_temp = 65.0` encodes to
`{"step_temp":65}`, given that the float formatter writes `65` for 65.0.  When
the encoded values are valid JSON, the bytes parse to an object that has no
member named after an empty field. -/
theorem C7_empty_fields_omitted (m : MashStep) :
    m.fields.length = 14 ∧
    (∀ f ∈ m.fields, isEmptyValue f.value = true → f.name ∉ objectKeys m) ∧
    (m.Name = [] → "name" ∉ objectKeys m) ∧
    (m.Version = 0 → "version" ∉ objectKeys m) ∧
    (m.Type_ = [] → "type" ∉ objectKeys m) ∧
    (m.InfuseAmount = none → "infuse_amount" ∉ objectKeys m) ∧
    (m.StepTemp.isZero = true → "step_temp" ∉ objectKeys m) ∧
    (m.StepTime = 0 → "step_time" ∉ objectKeys m) ∧
    (m.RampTime = none → "ramp_time" ∉ objectKeys m) ∧
    (m.EndTemp = none → "end_temp" ∉ objectKeys m) ∧
    (m.Description = [] → "description" ∉ objectKeys m) ∧
    (m.WaterGrainRatio = [] → "water_grain_ratio" ∉ objectKeys m) ∧
    (m.DecoctionAmt = [] → "decoction_amt" ∉ objectKeys m) ∧
    (m.InfuseTemp = [] → "infuse_temp" ∉ objectKeys m) ∧
    (m.DisplayStepTemp = [] → "display_step_temp" ∉ objectKeys m) ∧
    (m.DisplayInfuseAmt = [] → "display_infuse_amt" ∉ objectKeys m) ∧
    (∀ lib : Formatters, jsonMarshal lib MashStep.zero = (ascii "\x7b\x7d", none)) ∧
    (∀ lib : Formatters, lib.float Float64.sixtyFive = ascii "65" →
      jsonMarshal lib stepB = (ascii "\x7b\"step_temp\":65\x7d", none)) ∧
    (∀ lib : Formatters,
      (∀ f ∈ emitted m.fields,
        ((encodeValue lib f.value).toOption.bind parseJson).isSome = true) →
      ∃ b members, jsonMarshal lib m = (b, none) ∧
        parseJson b = some (JValue.object members) ∧
        ∀ f ∈ m.fields, isEmptyValue f.value = true →
          ascii f.name ∉ members.map Prod.fst) := by
  have key : ∀ f ∈ m.fields, isEmptyValue f.value = true → f.name ∉ objectKeys m :=
    omitted_of_empty m
  refine ⟨rfl, key, ?_, ?_, ?_, ?_, ?_, ?_, ?_, ?_, ?_, ?_, ?_, ?_, ?_, ?_, ?_, ?_,
    fun lib hval => omitted_in_parse lib m hval⟩
  · intro h
    exact key ⟨"name", true, .plain (.string m.Name)⟩ (by simp [MashStep.fields])
      (by simp [isEmptyValue, h])
  · intro h
    exact key ⟨"version", true, .plain (.int m.Version)⟩ (by simp [MashStep.fields])
      (by simp [isEmptyValue, h])
  · intro h
    exact key ⟨"type", true, .plain (.string m.Type_)⟩ (by simp [MashStep.fields])
      (by simp [isEmptyValue, h])
  · intro h
    exact key ⟨"infuse_amount", true, .pointer (m.InfuseAmount.map Scalar.float)⟩
      (by simp [MashStep.fields]) (by simp [isEmptyValue, h])
  · intro h
    exact key ⟨"step_temp", true, .plain (.float m.StepTemp)⟩ (by simp [MashStep.fields])
      (by simp [isEmptyValue, h])
  · intro h
    exact key ⟨"step_time", true, .plain (.int m.StepTime)⟩ (by simp [MashStep.fields])
      (by simp [isEmptyValue, h])
  · intro h
    exact key ⟨"ramp_time", true, .pointer (m.RampTime.map Scalar.int)⟩
      (by simp [MashStep.fields]) (by simp [isEmptyValue, h])
  · intro h
    exact key ⟨"end_temp", true, .pointer (m.EndTemp.map Scalar.float)⟩
      (by simp [MashStep.fields]) (by simp [isEmptyValue, h])
  · intro h
    exact key ⟨"description", true, .plain (.string m.Description)⟩
      (by simp [MashStep.fields]) (by simp [isEmptyValue, h])
  · intro h
    exact key ⟨"water_grain_ratio", true, .plain (.string m.WaterGrainRatio)⟩
      (by simp [MashStep.fields]) (by simp [isEmptyValue, h])
  · intro h
    exact key ⟨"decoction_amt", true, .plain (.string m.DecoctionAmt)⟩
      (by simp [MashStep.fields]) (by simp [isEmptyValue, h])
  · intro h
    exact key ⟨"infuse_temp", true, .plain (.string m.InfuseTemp)⟩
      (by simp [MashStep.fields]) (by simp [isEmptyValue, h])
  · intro h
    exact key ⟨"display_step_temp", true, .plain (.string m.DisplayStepTemp)⟩
      (by simp [MashStep.fields]) (by simp [isEmptyValue, h])
  · intro h
    exact key ⟨"display_infuse_amt", true, .plain (.string m.DisplayInfuseAmt)⟩
      (by simp [MashStep.fields]) (by simp [isEmptyValue, h])
  · intro lib
    have hms : encodeMembers lib MashStep.zero.fields = .ok [] := by
      have hz : Float64.zero.isZero = true := by decide
      simp [encodeMembers, MashStep.zero, MashStep.fields, isEmptyValue, hz]
    rw [jsonMarshal_eq_members lib MashStep.zero _ hms]
    decide
  · intro lib h65
    have hms : encodeMembers lib stepB.fields = .ok [("step_temp", ascii "65")] := by
      have hz : Float64.sixtyFive.isZero = false := by decide
      have hi : (Float64.sixtyFive.isInf || Float64.sixtyFive.isNaN) = false := by decide
      simp [encodeMembers, stepB, MashStep.zero, MashStep.fields, isEmptyValue, encodeValue,
        encodeScalar, floatEncoder, hz, hi, h65]
    rw [jsonMarshal_eq_members lib stepB _ hms]
    decide

/-- C7 at the all-empty record and at `stepB`. -/
theorem C7_empty_fields_omitted_witness :
    MashStep.zero.StepTemp.isZero = true ∧ "step_temp" ∉ objectKeys MashStep.zero ∧
    MashStep.zero.StepTime = 0 ∧ "step_time" ∉ objectKeys MashStep.zero ∧
    exampleFormat.float Float64.sixtyFive = ascii "65" ∧
    jsonMarshal exampleFormat stepB = (ascii "\x7b\"step_temp\":65\x7d", none) :=
  ⟨by decide, (C7_empty_fields_omitted MashStep.zero).2.2.2.2.2.2.1 (by decide),
    by decide, (C7_empty_fields_omitted MashStep.zero).2.2.2.2.2.2.2.1 (by decide),
    by decide,
    (C7_empty_fields_omitted MashStep.zero).2.2.2.2.2.2.2.2.2.2.2.2.2.2.2.2.2.1 exampleFormat
      (by decide)⟩

/-- C8: a record whose optional numeric field (`infuse_amount`, `ramp_time`,
`end_temp`) is present, in particular present with value 0, differs from the
otherwise identical record in which the field is absent, and the two do not
encode to the same bytes either.  An absent optional numeric field serializes to
no key at all: the bytes `json.Marshal` returns for the record are an object
written without that key, they parse (when the encoded values are valid JSON) to
an object with no member of that name, and with nothing else set they are `{}`,
not a member with a zero or a null. -/
theorem C8_presence_distinct (m : MashStep) :
    (∀ v : Float64, ({ m with InfuseAmount := some v } : MashStep)
        ≠ { m with InfuseAmount := none }) ∧
    (∀ v : Int, ({ m with RampTime := some v } : MashStep) ≠ { m with RampTime := none }) ∧
    (∀ v : Float64, ({ m with EndTemp := some v } : MashStep) ≠ { m with EndTemp := none }) ∧
    ({ m with InfuseAmount := some Float64.zero } : MashStep) ≠ { m with InfuseAmount := none } ∧
    ({ m with RampTime := some 0 } : MashStep) ≠ { m with RampTime := none } ∧
    ({ m with EndTemp := some Float64.zero } : MashStep) ≠ { m with EndTemp := none } ∧
    "infuse_amount" ∉ objectKeys { m with InfuseAmount := none } ∧
    "ramp_time" ∉ objectKeys { m with RampTime := none } ∧
    "end_temp" ∉ objectKeys { m with EndTemp := none } ∧
    (∀ (lib : Formatters) (b : Bytes),
      jsonMarshal lib { m with InfuseAmount := none } = (b, none) →
      ∃ ms, b = renderObject ms ∧
        ms.map Prod.fst = objectKeys { m with InfuseAmount := none } ∧
        "infuse_amount" ∉ ms.map Prod.fst) ∧
    (∀ (lib : Formatters) (b : Bytes),
      jsonMarshal lib { m with RampTime := none } = (b, none) →
      ∃ ms, b = renderObject ms ∧
        ms.map Prod.fst = objectKeys { m with RampTime := none } ∧
        "ramp_time" ∉ ms.map Prod.fst) ∧
    (∀ (lib : Formatters) (b : Bytes),
      jsonMarshal lib { m with EndTemp := none } = (b, none) →
      ∃ ms, b = renderObject ms ∧
        ms.map Prod.fst = objectKeys { m with EndTemp := none } ∧
        "end_temp" ∉ ms.map Prod.fst) ∧
    (∀ lib : Formatters,
      (∀ g ∈ emitted ({ m with InfuseAmount := none } : MashStep).fields,
        ((encodeValue lib g.value).toOption.bind parseJson).isSome = true) →
      ∃ b members, jsonMarshal lib { m with InfuseAmount := none } = (b, none) ∧
        parseJson b = some (JValue.object members) ∧
        ascii "infuse_amount" ∉ members.map Prod.fst) ∧
    (∀ lib : Formatters,
      (∀ g ∈ emitted ({ m with RampTime := none } : MashStep).fields,
        ((encodeValue lib g.value).toOption.bind parseJson).isSome = true) →
      ∃ b members, jsonMarshal lib { m with RampTime := none } = (b, none) ∧
        parseJson b = some (JValue.object members) ∧
        ascii "ramp_time" ∉ members.map Prod.fst) ∧
    (∀ lib : Formatters,
      (∀ g ∈ emitted ({ m with EndTemp := none } : MashStep).fields,
        ((encodeValue lib g.value).toOption.bind parseJson).isSome = true) →
      ∃ b members, jsonMarshal lib { m with EndTemp := none } = (b, none) ∧
        parseJson b = some (JValue.object members) ∧
        ascii "end_temp" ∉ members.map Prod.fst) ∧
    (∀ (lib : Formatters) (v : Float64) (b1 b0 : Bytes),
      jsonMarshal lib { m with InfuseAmount := some v } = (b1, none) →
      jsonMarshal lib { m with InfuseAmount := none } = (b0, none) → b1 ≠ b0) ∧
    (∀ (lib : Formatters) (v : Int) (b1 b0 : Bytes),
      jsonMarshal lib { m with RampTime := some v } = (b1, none) →
      jsonMarshal lib { m with RampTime := none } = (b0, none) → b1 ≠ b0) ∧
    (∀ (lib : Formatters) (v : Float64) (b1 b0 : Bytes),
      jsonMarshal lib { m with EndTemp := some v } = (b1, none) →
      jsonMarshal lib { m with EndTemp := none } = (b0, none) → b1 ≠ b0) ∧
    (∀ lib : Formatters, jsonMarshal lib MashStep.zero = (ascii "\x7b\x7d", none)) := by
  refine ⟨?_, ?_, ?_, ?_, ?_, ?_, ?_, ?_, ?_, ?_, ?_, ?_, ?_, ?_, ?_,
    fun lib v b1 b0 h1 h0 => infuse_differ lib m v b1 b0 h1 h0,
    fun lib v b1 b0 h1 h0 => ramp_differ lib m v b1 b0 h1 h0,
    fun lib v b1 b0 h1 h0 => end_differ lib m v b1 b0 h1 h0, ?_⟩
  · intro v h
    simp at h
  · intro v h
    simp at h
  · intro v h
    simp at h
  · intro h
    simp at h
  · intro h
    simp at h
  · intro h
    simp at h
  · exact omitted_of_empty _ ⟨"infuse_amount", true, .pointer none⟩
      (by simp [MashStep.fields]) rfl
  · exact omitted_of_empty _ ⟨"ramp_time", true, .pointer none⟩
      (by simp [MashStep.fields]) rfl
  · exact omitted_of_empty _ ⟨"end_temp", true, .pointer none⟩
      (by simp [MashStep.fields]) rfl
  · intro lib b h
    exact absent_no_member lib _ ⟨"infuse_amount", true, .pointer none⟩
      (by simp [MashStep.fields]) rfl b h
  · intro lib b h
    exact absent_no_member lib _ ⟨"ramp_time", true, .pointer none⟩
      (by simp [MashStep.fields]) rfl b h
  · intro lib b h
    exact absent_no_member lib _ ⟨"end_temp", true, .pointer none⟩
      (by simp [MashStep.fields]) rfl b h
  · intro lib hval
    exact absent_no_parsed_member lib _ ⟨"infuse_amount", true, .pointer none⟩
      (by simp [MashStep.fields]) rfl hval
  · intro lib hval
    exact absent_no_parsed_member lib _ ⟨"ramp_time", true, .pointer none⟩
      (by simp [MashStep.fields]) rfl hval
  · intro lib hval
    exact absent_no_parsed_member lib _ ⟨"end_temp", true, .pointer none⟩
      (by simp [MashStep.fields]) rfl hval
  · intro lib
    rw [jsonMarshal_eq_members lib MashStep.zero _ (zero_members lib)]
    decide

/-- C8 at `stepA` with each optional field absent, and at the all-empty record with
the ramp time present and absent. -/
theorem C8_presence_distinct_witness :
    jsonMarshal exampleFormat { stepA with InfuseAmount := none }
      = (ascii "\x7b\"version\":1,\"step_time\":30\x7d", none) ∧
    (∃ ms, ascii "\x7b\"version\":1,\"step_time\":30\x7d" = renderObject ms ∧
      ms.map Prod.fst = objectKeys { stepA with InfuseAmount := none } ∧
      "infuse_amount" ∉ ms.map Prod.fst) ∧
    (∀ g ∈ emitted ({ stepA with EndTemp := none } : MashStep).fields,
      ((encodeValue exampleFormat g.value).toOption.bind parseJson).isSome = true) ∧
    (∃ b members, jsonMarshal exampleFormat { stepA with EndTemp := none } = (b, none) ∧
      parseJson b = some (JValue.object members) ∧
      ascii "end_temp" ∉ members.map Prod.fst) ∧
    jsonMarshal exampleFormat { MashStep.zero with RampTime := some 0 }
      = (ascii "\x7b\"ramp_time\":0\x7d", none) ∧
    jsonMarshal exampleFormat { MashStep.zero with RampTime := none }
      = (ascii "\x7b\x7d", none) ∧
    ascii "\x7b\"ramp_time\":0\x7d" ≠ ascii "\x7b\x7d" :=
  ⟨by decide,
    (C8_presence_distinct stepA).2.2.2.2.2.2.2.2.2.1 exampleFormat _ (by decide),
    by decide,
    (C8_presence_distinct stepA).2.2.2.2.2.2.2.2.2.2.2.2.2.2.1 exampleFormat (by decide),
    by decide, by decide,
    (C8_presence_distinct MashStep.zero).2.2.2.2.2.2.2.2.2.2.2.2.2.2.2.2.1 exampleFormat 0 _ _ (by decide) (by decide)⟩

/-- C10: every key of a record's JSON object is one of the 14 fixed
lower-snake-case names, no key occurs twice, and the keys occur in declaration
order.  The bytes returned by `json.Marshal` are the object written with exactly
these keys in this order, and when the encoded values are valid JSON these bytes
parse to an object with exactly these keys in this order. -/
theorem C10_keys_fixed_ordered (m : MashStep) :
    declaredKeys.length = 14 ∧
    (∀ k ∈ declaredKeys, (ascii k).all snakeByte = true) ∧
    (∀ k ∈ objectKeys m, k ∈ declaredKeys) ∧
    (objectKeys m).Nodup ∧
    List.Sublist (objectKeys m) declaredKeys ∧
    (∀ (lib : Formatters) (b : Bytes), jsonMarshal lib m = (b, none) →
      ∃ ms, ms.map Prod.fst = objectKeys m ∧ b = renderObject ms) ∧
    (∀ lib : Formatters,
      (∀ f ∈ emitted m.fields,
        ((encodeValue lib f.value).toOption.bind parseJson).isSome = true) →
      ∃ b members, jsonMarshal lib m = (b, none) ∧
        parseJson b = some (JValue.object members) ∧
        members.map Prod.fst = (objectKeys m).map ascii) := by
  have hsub := objectKeys_sublist m
  refine ⟨rfl, by decide, fun k hk => hsub.subset hk, hsub.nodup declaredKeys_nodup, hsub,
    ?_, ?_⟩
  · intro lib b h
    exact jsonMarshal_object lib m b h
  · intro lib hval
    exact jsonMarshal_parses lib m hval

/-- C10 at the record `stepA`. -/
theorem C10_keys_fixed_ordered_witness :
    jsonMarshal exampleFormat stepA
      = (ascii "\x7b\"version\":1,\"step_time\":30\x7d", none) ∧
    (∃ ms, ms.map Prod.fst = objectKeys stepA ∧
      ascii "\x7b\"version\":1,\"step_time\":30\x7d" = renderObject ms) ∧
    (∀ f ∈ emitted stepA.fields,
      ((encodeValue exampleFormat f.value).toOption.bind parseJson).isSome = true) ∧
    ∃ b members, jsonMarshal exampleFormat stepA = (b, none) ∧
      parseJson b = some (JValue.object members) ∧
      members.map Prod.fst = (objectKeys stepA).map ascii :=
  ⟨by decide, (C10_keys_fixed_ordered stepA).2.2.2.2.2.1 exampleFormat _ (by decide),
    by decide, (C10_keys_fixed_ordered stepA).2.2.2.2.2.2 exampleFormat (by decide)⟩

/-! ### Further claims about the collection -/

/-- C12: for every collection `c`, `MarshalJSON` returns (it does not panic), and
`UnmarshalJSON` called on a fresh empty collection with the bytes it returned gives
a nil error and leaves that collection empty; so when `c` is not empty the decoded
collection differs from `c`. -/
theorem C12_decode_not_inverse {ε : Type} (jm : MashStep → Bytes × Option ε)
    (c : MashSteps) :
    MashSteps.MarshalJSON jm c ≠ .panic ∧
    (MashSteps.UnmarshalJSON ⟨[]⟩ (MashSteps.MarshalJSON jm c).bytes
        : MashSteps × Option ε) = (⟨[]⟩, none) ∧
    (c.Mashstep ≠ [] →
      (MashSteps.UnmarshalJSON ⟨[]⟩ (MashSteps.MarshalJSON jm c).bytes
        : MashSteps × Option ε).1 ≠ c) := by
  refine ⟨marshal_no_panic jm c, rfl, ?_⟩
  intro hne heq
  apply hne
  rw [← heq]
  rfl

/-- C12 at the collection of `stepA` and `stepB`. -/
theorem C12_decode_not_inverse_witness :
    (⟨[stepA, stepB]⟩ : MashSteps).Mashstep ≠ [] ∧
    (MashSteps.MarshalJSON (jsonMarshal exampleFormat) ⟨[stepA, stepB]⟩).bytes
      = ascii "[\x7b\"version\":1,\"step_time\":30\x7d,\x7b\"step_temp\":65\x7d]" ∧
    (MashSteps.UnmarshalJSON ⟨[]⟩
        (MashSteps.MarshalJSON (jsonMarshal exampleFormat) ⟨[stepA, stepB]⟩).bytes
        : MashSteps × Option JsonError).1 ≠ ⟨[stepA, stepB]⟩ :=
  ⟨by decide, by decide,
    (C12_decode_not_inverse (jsonMarshal exampleFormat) ⟨[stepA, stepB]⟩).2.2 (by decide)⟩

/-- C13: whenever the trim `b = b[:len(b)-1]` executes, that is, the collection
is not empty and the loop has ended without error with buffer `b`, the buffer has
length at least 2, its last byte is `,`, it is the opening bracket and the
records' encodings joined by commas followed by that one comma, and the slice
expression is in range and returns the buffer without that comma; `MarshalJSON`
does not panic, and what it returns is that sliced buffer followed by `]`: the
bracket, every byte of every encoding, and the closing bracket.  This holds for
every encoder, whatever bytes it returns. -/
theorem C13_trim_in_range {ε : Type} (jm : MashStep → Bytes × Option ε)
    (steps : List MashStep) (b : Bytes) (hlen : steps.length > 0)
    (hloop : MarshalJSON.loop jm steps ([] ++ ascii "[") = .ok b) :
    2 ≤ b.length ∧
    b.getLast? = some 0x2C ∧
    b = ascii "[" ++ List.intercalate (ascii ",") (steps.map (fun s => (jm s).1))
          ++ ascii "," ∧
    sliceTo b ((b.length : Int) - 1)
      = some (ascii "[" ++ List.intercalate (ascii ",") (steps.map (fun s => (jm s).1))) ∧
    MashSteps.MarshalJSON jm ⟨steps⟩ ≠ .panic ∧
    (MashSteps.MarshalJSON jm ⟨steps⟩ =
      match sliceTo b ((b.length : Int) - 1) with
      | none => .panic
      | some t => .ret (some (t ++ ascii "]")) none) ∧
    MashSteps.MarshalJSON jm ⟨steps⟩ = .ret (some (b.dropLast ++ ascii "]")) none ∧
    MashSteps.MarshalJSON jm ⟨steps⟩
      = .ret (some (ascii "[" ++ List.intercalate (ascii ",")
          (steps.map (fun s => (jm s).1)) ++ ascii "]")) none := by
  have hne : steps ≠ [] := List.length_pos.mp hlen
  have hb := trim_buffer jm steps _ b hne hloop
  have hl : ascii "[" = [0x5B] := by decide
  have hc : ascii "," = [0x2C] := by decide
  have hm := marshal_nonempty jm steps hne (loop_shape jm steps _ b hloop).1
  have hrun : MashSteps.MarshalJSON jm ⟨steps⟩ =
      match sliceTo b ((b.length : Int) - 1) with
      | none => .panic
      | some t => .ret (some (t ++ ascii "]")) none := by
    simp only [MashSteps.MarshalJSON, hlen, if_true, hloop]
  rw [List.nil_append] at hb
  refine ⟨?_, ?_, ?_, ?_, marshal_no_panic jm ⟨steps⟩, hrun,
    by rw [hm, hb, List.dropLast_concat], hm⟩
  · rw [hb, hl]
    simp only [List.length_append, List.length_cons, List.length_nil]
    omega
  · rw [hb]
    simp
  · rw [hb, hc]
  · rw [hb, sliceTo_dropLast]

/-- C13 at a collection of two records with an encoder whose encodings are the
single byte `,`, at a collection of one record with an encoder whose encodings
are empty, and at the collection holding `stepB` with the record encoder. -/
theorem C13_trim_in_range_witness :
    [stepA, stepB].length > 0 ∧
    MarshalJSON.loop commaEncoder [stepA, stepB] ([] ++ ascii "[") = .ok (ascii "[,,,,") ∧
    sliceTo (ascii "[,,,,") (((ascii "[,,,,").length : Int) - 1)
      = some (ascii "[" ++ List.intercalate (ascii ",")
          ([stepA, stepB].map (fun s => (commaEncoder s).1))) ∧
    (ascii "[,,,,").getLast? = some 0x2C ∧
    MarshalJSON.loop emptyEncoder [stepA] ([] ++ ascii "[") = .ok (ascii "[,") ∧
    sliceTo (ascii "[,") (((ascii "[,").length : Int) - 1)
      = some (ascii "[" ++ List.intercalate (ascii ",")
          ([stepA].map (fun s => (emptyEncoder s).1))) ∧
    MashSteps.MarshalJSON commaEncoder ⟨[stepA, stepB]⟩
      = .ret (some ((ascii "[,,,,").dropLast ++ ascii "]")) none ∧
    (ascii "[,,,,").dropLast ++ ascii "]" = ascii "[,,,]" ∧
    MarshalJSON.loop (jsonMarshal exampleFormat) [stepB] ([] ++ ascii "[")
      = .ok (ascii "[\x7b\"step_temp\":65\x7d,") ∧
    MashSteps.MarshalJSON (jsonMarshal exampleFormat) ⟨[stepB]⟩
      = .ret (some ((ascii "[\x7b\"step_temp\":65\x7d,").dropLast ++ ascii "]")) none ∧
    (ascii "[\x7b\"step_temp\":65\x7d,").dropLast ++ ascii "]"
      = ascii "[\x7b\"step_temp\":65\x7d]" :=
  ⟨by decide, rfl,
    (C13_trim_in_range commaEncoder [stepA, stepB] (ascii "[,,,,") (by decide) rfl).2.2.2.1,
    (C13_trim_in_range commaEncoder [stepA, stepB] (ascii "[,,,,") (by decide) rfl).2.1,
    rfl,
    (C13_trim_in_range emptyEncoder [stepA] (ascii "[,") (by decide) rfl).2.2.2.1,
    (C13_trim_in_range commaEncoder [stepA, stepB] (ascii "[,,,,") (by decide)
      rfl).2.2.2.2.2.2.1,
    by decide, rfl,
    (C13_trim_in_range (jsonMarshal exampleFormat) [stepB]
      (ascii "[\x7b\"step_temp\":65\x7d,") (by decide) rfl).2.2.2.2.2.2.1,
    by decide⟩

/-- C14: for non-empty record lists `xs` and `ys` whose records all encode, the
output for `xs ++ ys` is the output for `xs` without its final `]`, a comma, and
the output for `ys` without its initial `[`; and the output for a collection of
N ≥ 1 records that all encode has length 2 + the sum of the encodings' lengths
+ (N - 1). -/
theorem C14_marshal_append {ε : Type} (jm : MashStep → Bytes × Option ε) :
    (∀ xs ys : List MashStep, xs ≠ [] → ys ≠ [] → (∀ s ∈ xs ++ ys, (jm s).2 = none) →
      ∃ ox oy, MashSteps.MarshalJSON jm ⟨xs⟩ = .ret (some ox) none ∧
        MashSteps.MarshalJSON jm ⟨ys⟩ = .ret (some oy) none ∧
        ox.getLast? = some 0x5D ∧ oy.head? = some 0x5B ∧
        MashSteps.MarshalJSON jm ⟨xs ++ ys⟩
          = .ret (some (ox.dropLast ++ ascii "," ++ oy.tail)) none) ∧
    (∀ steps : List MashStep, 1 ≤ steps.length → (∀ s ∈ steps, (jm s).2 = none) →
      ∃ out, MashSteps.MarshalJSON jm ⟨steps⟩ = .ret (some out) none ∧
        out.length = 2 + (steps.map (fun s => (jm s).1.length)).sum + (steps.length - 1)) := by
  have hl : ascii "[" = [0x5B] := by decide
  have hr : ascii "]" = [0x5D] := by decide
  constructor
  · intro xs ys hx hy hok
    have hokx : ∀ s ∈ xs, (jm s).2 = none := fun s hs => hok s (by simp [hs])
    have hoky : ∀ s ∈ ys, (jm s).2 = none := fun s hs => hok s (by simp [hs])
    have hxy : xs ++ ys ≠ [] := by simp [hx]
    have hmx : xs.map (fun s => (jm s).1) ≠ [] := by simpa using hx
    have hmy : ys.map (fun s => (jm s).1) ≠ [] := by simpa using hy
    refine ⟨_, _, marshal_nonempty jm xs hx hokx, marshal_nonempty jm ys hy hoky, ?_, ?_, ?_⟩
    · rw [hr]
      simp
    · rw [hl]
      simp
    · rw [marshal_nonempty jm (xs ++ ys) hxy hok, List.map_append,
        intercalate_append _ _ _ hmx hmy, hl, hr, List.dropLast_concat]
      simp [List.append_assoc]
  · intro steps hN hok
    have hne : steps ≠ [] := by
      intro h
      rw [h] at hN
      simp at hN
    exact ⟨_, marshal_nonempty jm steps hne hok, marshal_length jm steps⟩

/-- C14 at `xs = [stepA]` and `ys = [stepB]`. -/
theorem C14_marshal_append_witness :
    [stepA] ≠ [] ∧ [stepB] ≠ [] ∧
    (∀ s ∈ [stepA] ++ [stepB], (jsonMarshal exampleFormat s).2 = none) ∧
    (∃ ox oy, MashSteps.MarshalJSON (jsonMarshal exampleFormat) ⟨[stepA]⟩
          = .ret (some ox) none ∧
        MashSteps.MarshalJSON (jsonMarshal exampleFormat) ⟨[stepB]⟩ = .ret (some oy) none ∧
        ox.getLast? = some 0x5D ∧ oy.head? = some 0x5B ∧
        MashSteps.MarshalJSON (jsonMarshal exampleFormat) ⟨[stepA] ++ [stepB]⟩
          = .ret (some (ox.dropLast ++ ascii "," ++ oy.tail)) none) ∧
    (∃ out, MashSteps.MarshalJSON (jsonMarshal exampleFormat) ⟨[stepA, stepB]⟩
          = .ret (some out) none ∧
        out.length = 2 + ([stepA, stepB].map
          (fun s => (jsonMarshal exampleFormat s).1.length)).sum + ([stepA, stepB].length - 1)) :=
  ⟨by decide, by decide, by decide,
    (C14_marshal_append (jsonMarshal exampleFormat)).1 [stepA] [stepB] (by decide) (by decide)
      (by decide),
    (C14_marshal_append (jsonMarshal exampleFormat)).2 [stepA, stepB] (by decide) (by decide)⟩

/-! ### Further claims about the record encoder -/

/-- C11: an optional numeric field (`infuse_amount`, `ramp_time`, `end_temp`) has
its key in the record's JSON object exactly when it is present, whatever value it
points to.  When it is present with value 0 and the record encodes, the object
has the member with that key and the number written for 0 (`0` for the integer
`ramp_time`, the formatter's output for 0.0 for the two floats); with nothing else
set the encoding is `{"infuse_amount":0}`, `{"ramp_time":0}`, `{"end_temp":0}`
(for the floats: given that the formatter writes `0` for 0.0).  The encodings of
the record with the field present and of the same record with the field absent
differ. -/
theorem C11_present_zero_emitted (m : MashStep) :
    ("infuse_amount" ∈ objectKeys m ↔ m.InfuseAmount ≠ none) ∧
    ("ramp_time" ∈ objectKeys m ↔ m.RampTime ≠ none) ∧
    ("end_temp" ∈ objectKeys m ↔ m.EndTemp ≠ none) ∧
    (∀ (lib : Formatters) (b : Bytes), m.InfuseAmount = some Float64.zero →
      jsonMarshal lib m = (b, none) →
      ∃ ms, b = renderObject ms ∧ ("infuse_amount", lib.float Float64.zero) ∈ ms) ∧
    (∀ (lib : Formatters) (b : Bytes), m.RampTime = some 0 →
      jsonMarshal lib m = (b, none) →
      ∃ ms, b = renderObject ms ∧ ("ramp_time", ascii "0") ∈ ms) ∧
    (∀ (lib : Formatters) (b : Bytes), m.EndTemp = some Float64.zero →
      jsonMarshal lib m = (b, none) →
      ∃ ms, b = renderObject ms ∧ ("end_temp", lib.float Float64.zero) ∈ ms) ∧
    (∀ lib : Formatters, lib.float Float64.zero = ascii "0" →
      jsonMarshal lib stepInfuseZero = (ascii "\x7b\"infuse_amount\":0\x7d", none)) ∧
    (∀ lib : Formatters,
      jsonMarshal lib stepRampZero = (ascii "\x7b\"ramp_time\":0\x7d", none)) ∧
    (∀ lib : Formatters, lib.float Float64.zero = ascii "0" →
      jsonMarshal lib stepEndZero = (ascii "\x7b\"end_temp\":0\x7d", none)) ∧
    (∀ lib : Formatters, jsonMarshal lib MashStep.zero = (ascii "\x7b\x7d", none)) ∧
    (∀ (lib : Formatters) (b1 b0 : Bytes),
      jsonMarshal lib { m with InfuseAmount := some Float64.zero } = (b1, none) →
      jsonMarshal lib { m with InfuseAmount := none } = (b0, none) → b1 ≠ b0) ∧
    (∀ (lib : Formatters) (b1 b0 : Bytes),
      jsonMarshal lib { m with RampTime := some 0 } = (b1, none) →
      jsonMarshal lib { m with RampTime := none } = (b0, none) → b1 ≠ b0) ∧
    (∀ (lib : Formatters) (b1 b0 : Bytes),
      jsonMarshal lib { m with EndTemp := some Float64.zero } = (b1, none) →
      jsonMarshal lib { m with EndTemp := none } = (b0, none) → b1 ≠ b0) := by
  refine ⟨infuse_key_iff m, ramp_key_iff m, end_key_iff m,
    fun lib b hz h => infuse_zero_member lib m b hz h,
    fun lib b hz h => ramp_zero_member lib m b hz h,
    fun lib b hz h => end_zero_member lib m b hz h, ?_, ?_, ?_, ?_,
    fun lib b1 b0 h1 h0 => infuse_differ lib m Float64.zero b1 b0 h1 h0,
    fun lib b1 b0 h1 h0 => ramp_differ lib m 0 b1 b0 h1 h0,
    fun lib b1 b0 h1 h0 => end_differ lib m Float64.zero b1 b0 h1 h0⟩
  · intro lib h0
    rw [jsonMarshal_eq_members lib stepInfuseZero _ (infuseZero_members lib), h0]
    decide
  · intro lib
    rw [jsonMarshal_eq_members lib stepRampZero _ (rampZero_members lib)]
    decide
  · intro lib h0
    rw [jsonMarshal_eq_members lib stepEndZero _ (endZero_members lib), h0]
    decide
  · intro lib
    have hms : encodeMembers lib MashStep.zero.fields = .ok [] := by
      simp [encodeMembers, MashStep.zero, MashStep.fields, isEmptyValue,
        zero_fields_skipped.1]
    rw [jsonMarshal_eq_members lib MashStep.zero _ hms]
    decide

/-- C11 at the records with only `infuse_amount`, only `ramp_time` and only
`end_temp` set, each to a present zero. -/
theorem C11_present_zero_emitted_witness :
    stepInfuseZero.InfuseAmount ≠ none ∧ "infuse_amount" ∈ objectKeys stepInfuseZero ∧
    exampleFormat.float Float64.zero = ascii "0" ∧
    jsonMarshal exampleFormat stepInfuseZero
      = (ascii "\x7b\"infuse_amount\":0\x7d", none) ∧
    jsonMarshal exampleFormat stepEndZero = (ascii "\x7b\"end_temp\":0\x7d", none) ∧
    jsonMarshal exampleFormat stepRampZero = (ascii "\x7b\"ramp_time\":0\x7d", none) ∧
    jsonMarshal exampleFormat MashStep.zero = (ascii "\x7b\x7d", none) ∧
    ascii "\x7b\"ramp_time\":0\x7d" ≠ ascii "\x7b\x7d" :=
  ⟨by decide, (C11_present_zero_emitted stepInfuseZero).1.mpr (by decide),
    exampleFormat_zero,
    (C11_present_zero_emitted MashStep.zero).2.2.2.2.2.2.1 exampleFormat exampleFormat_zero,
    (C11_present_zero_emitted MashStep.zero).2.2.2.2.2.2.2.2.1 exampleFormat
      exampleFormat_zero,
    (C11_present_zero_emitted MashStep.zero).2.2.2.2.2.2.2.1 exampleFormat,
    (C11_present_zero_emitted MashStep.zero).2.2.2.2.2.2.2.2.2.1 exampleFormat,
    (C11_present_zero_emitted MashStep.zero).2.2.2.2.2.2.2.2.2.2.2.1 exampleFormat _ _
      (by decide) (by decide)⟩

end BeerXML
